import Mathlib

/-!
Verification development for a Newick-format tree parsing library
(source: parse_newick.py).

The source is embedded shallowly: Python strings become `List Char`,
Python exceptions become an error result, and the source's unbounded
recursions are modelled with an explicit fuel argument that is proved
sufficient.  Each embedded definition mirrors one Python function.
-/

set_option maxRecDepth 4000

/-- Error outcomes of the Python code.  The source raises ValueError both
from failed `str.index` calls (unbalanced delimiters) and from `float`
on non-numeric text; the terminator check in `parse_newick` has its own
raise site, kept separate here as `formatError` following the raise at
line 322 of the source. -/
inductive PErr : Type where
  | valueError : PErr
  | formatError : PErr
deriving DecidableEq

/-- Result of running an embedded (fuelled) computation: a value, a raised
error, or exhaustion of the fuel bound (which the termination theorems show
never happens at the stated fuel). -/
inductive PRes (α : Type) : Type where
  | fuelOut : PRes α
  | err : PErr → PRes α
  | ok : α → PRes α
deriving DecidableEq

/-- Functorial action on the `ok` value of a `PRes`. -/
def PRes.map {α β : Type} (f : α → β) : PRes α → PRes β
  | .fuelOut => .fuelOut
  | .err e => .err e
  | .ok a => .ok (f a)

/-- First index `j` with `lo ≤ j < lo + n` satisfying `p`, scanning upward. -/
def firstIdx (p : Nat → Bool) : Nat → Nat → Option Nat
  | _, 0 => none
  | lo, n + 1 => if p lo then some lo else firstIdx p (lo + 1) n

/-- Python `s.index(c, start)` / `s.find(c, start)`: the least index `j ≥ start`
with `s[j] = c`, if any. -/
def strIndex (s : List Char) (c : Char) (start : Nat) : Option Nat :=
  firstIdx (fun j => decide (s[j]? = some c)) start (s.length - start)

/-- The whitespace characters stripped by Python `str.strip()`. -/
def isPySpace (c : Char) : Bool :=
  c == ' ' || c == '\t' || c == '\n' || c == '\r' || c == '\x0b' || c == '\x0c'

/-- Python `str.lstrip()`. -/
def lstrip (s : List Char) : List Char := s.dropWhile isPySpace

/-- Python `str.strip()`: remove leading and trailing whitespace. -/
def pstrip (s : List Char) : List Char := (s.dropWhile isPySpace).rdropWhile isPySpace

/-- Python slice `s[:k]` for a possibly negative `k`. -/
def pySliceTo (s : List Char) (k : Int) : List Char :=
  if k < 0 then s.take ((s.length : Int) + k).toNat else s.take k.toNat

/-- Python slice `s[k:]` for a possibly negative `k`. -/
def pySliceFrom (s : List Char) (k : Int) : List Char :=
  if k < 0 then s.drop ((s.length : Int) + k).toNat else s.drop k.toNat

/-- Fuelled embedding of `_find_closing` (source lines 57-88).  `strIndex`
plays the role of `str.index` / `str.find`; a failed `index` raises
ValueError, embedded as `.err .valueError`. -/
def findClosingF (op cl : Char) : Nat → List Char → Nat → PRes Nat
  | 0, _, _ => .fuelOut
  | fuel + 1, s, start =>
    match strIndex s cl start with
    | none => .err .valueError
    | some nextClosing =>
      match strIndex s op start with
      | none => .ok nextClosing
      | some nextOpening =>
        if nextClosing < nextOpening then .ok nextClosing
        else
          match findClosingF op cl fuel s (nextOpening + 1) with
          | .ok skip => findClosingF op cl fuel s (skip + 1)
          | .err e => .err e
          | .fuelOut => .fuelOut

/-- `_find_closing(string, start, pair)`: the fuel `s.length + 1` is proved
sufficient by the termination theorem. -/
def _find_closing (s : List Char) (start : Nat) (op cl : Char) : PRes Nat :=
  findClosingF op cl (s.length + 1) s start

/-- Per-character contribution used to specify balanced delimiters:
a closing delimiter counts +1, an opening one -1, anything else 0. -/
def stepP (op cl : Char) (c : Char) : Int :=
  if c = cl then 1 else if c = op then -1 else 0

/-- Sum of `stepP` over a string: (number of closers) - (number of openers). -/
def balOf (op cl : Char) (t : List Char) : Int := (t.map (stepP op cl)).sum

/-- `balOf` of the first `n` characters of `s`. -/
def preOf (s : List Char) (op cl : Char) (n : Nat) : Int := balOf op cl (s.take n)

/-- Specification of the balancing closer, written from the spec's words:
given a start offset just past an opening delimiter, the closing delimiter
that balances it is the first position `j ≥ start` at which the closers
seen in `s[start..j]` outnumber the openers (nesting depth returns to
zero there and only there). -/
def matchingCloserIdx (s : List Char) (op cl : Char) (start : Nat) : Option Nat :=
  firstIdx (fun j => decide (0 < preOf s op cl (j + 1) - preOf s op cl start))
    start (s.length - start)

/-- The label / branch-length / comment decomposition shared by steps 2-4 of
`_parts_of_subtree` (source lines 112-123): split the remainder at the first
opening bracket, drop the assumed final closing bracket from the comment,
split the pre-comment head at the first colon, and strip only the label. -/
def restFields (rest : List Char) : List Char × List Char × List Char :=
  let (rest2, comment) :=
    match strIndex rest '[' 0 with
    | some i => (rest.take i, (rest.drop (i + 1)).dropLast)
    | none => (rest, [])
  match strIndex rest2 ':' 0 with
  | some i => (pstrip (rest2.take i), rest2.drop (i + 1), comment)
  | none => (pstrip rest2, [], comment)

/-- Embedding of `_parts_of_subtree` (source lines 94-123): children block,
label, branch-length text, comment text. -/
def _parts_of_subtree (newick : List Char) :
    PRes (List Char × List Char × List Char × List Char) :=
  if newick.head? = some '(' then
    match _find_closing newick 1 '(' ')' with
    | .ok ce =>
      let fields := restFields (newick.drop (ce + 1))
      .ok ((newick.take ce).drop 1, fields.1, fields.2.1, fields.2.2)
    | .err e => .err e
    | .fuelOut => .fuelOut
  else
    let fields := restFields newick
    .ok ([], fields.1, fields.2.1, fields.2.2)

/-- Fuelled embedding of the scanning `while` loop of `_next_node_end`
(source lines 147-161): skip bracketed or parenthesised groups, stop just
before the first top-level comma, or at the last index on exhaustion. -/
def nneLoopF : Nat → List Char → Nat → PRes Int
  | 0, _, _ => .fuelOut
  | fuel + 1, s, ce =>
    match s[ce]? with
    | none => .ok ((s.length : Int) - 1)
    | some c =>
      if c = '(' then
        match _find_closing s (ce + 1) '(' ')' with
        | .ok j => nneLoopF fuel s j
        | .err e => .err e
        | .fuelOut => .fuelOut
      else if c = '[' then
        match _find_closing s (ce + 1) '[' ']' with
        | .ok j => nneLoopF fuel s j
        | .err e => .err e
        | .fuelOut => .fuelOut
      else if c = ',' then .ok ((ce : Int) - 1)
      else nneLoopF fuel s (ce + 1)

/-- Embedding of `_next_node_end` (source lines 126-161).  The result is an
`Int` because the Python code returns `current_end - 1`, which is `-1` when
a comma sits at index 0. -/
def _next_node_end (nodes_str : List Char) : PRes Int :=
  let s := pstrip nodes_str
  let start : PRes Nat :=
    if s.head? = some '(' then _find_closing s 1 '(' ')' else .ok 0
  match start with
  | .ok ce => nneLoopF (s.length + 1) s ce
  | .err e => .err e
  | .fuelOut => .fuelOut

/-- Fuelled embedding of `_split_nodes` (source lines 164-194). -/
def split_nodesF : Nat → List Char → PRes (List (List Char))
  | 0, _ => .fuelOut
  | fuel + 1, nodes_str =>
    let s := pstrip nodes_str
    if s = [] then .ok []
    else if s = [','] then .ok [[], []]
    else if s.head? = some ',' then
      match split_nodesF fuel (s.drop 1) with
      | .ok l => .ok ([] :: l)
      | .err e => .err e
      | .fuelOut => .fuelOut
    else if s.getLast? = some ',' then
      match split_nodesF fuel s.dropLast with
      | .ok l => .ok (l ++ [[]])
      | .err e => .err e
      | .fuelOut => .fuelOut
    else
      match _next_node_end s with
      | .ok e =>
        let node := pySliceTo s (e + 1)
        let rest0 := lstrip (pySliceFrom s (e + 1))
        let rest := if rest0.head? = some ',' then rest0.drop 1 else rest0
        match split_nodesF fuel rest with
        | .ok l => .ok (node :: l)
        | .err e => .err e
        | .fuelOut => .fuelOut
      | .err e => .err e
      | .fuelOut => .fuelOut

/-- `_split_nodes`: the fuel `s.length + 1` is proved sufficient by the
termination theorem. -/
def _split_nodes (s : List Char) : PRes (List (List Char)) :=
  split_nodesF (s.length + 1) s

/-- Left-to-right effectful map, mirroring the Python list comprehension in
`parse_newick_subtree`: the first raised error aborts the whole list. -/
def mapPRes {α β : Type} (f : α → PRes β) : List α → PRes (List β)
  | [] => .ok []
  | x :: xs =>
    match f x with
    | .ok y =>
      match mapPRes f xs with
      | .ok ys => .ok (y :: ys)
      | .err e => .err e
      | .fuelOut => .fuelOut
    | .err e => .err e
    | .fuelOut => .fuelOut

/-- Fuelled embedding of `parse_newick_subtree` (source lines 208-269),
generic in the output type `T`, the distance value type `D` and the feature
value type `F`; `agg`, `dp`, `fp` are the three injected callbacks. -/
def parse_newick_subtreeF {T D F : Type}
    (agg : List Char → List T → D → F → T)
    (dp : List Char → D) (fp : List Char → F) : Nat → List Char → PRes T
  | 0, _ => .fuelOut
  | fuel + 1, newick =>
    match _parts_of_subtree (pstrip newick) with
    | .ok (children_str, label, distance_str, comment_str) =>
      match _split_nodes children_str with
      | .ok childStrs =>
        match mapPRes (parse_newick_subtreeF agg dp fp fuel) childStrs with
        | .ok children => .ok (agg label children (dp distance_str) (fp comment_str))
        | .err e => .err e
        | .fuelOut => .fuelOut
      | .err e => .err e
      | .fuelOut => .fuelOut
    | .err e => .err e
    | .fuelOut => .fuelOut

/-- `parse_newick_subtree`: the fuel `newick.length + 1` is proved sufficient
by the termination theorem. -/
def parse_newick_subtree {T D F : Type} (newick : List Char)
    (agg : List Char → List T → D → F → T)
    (dp : List Char → D) (fp : List Char → F) : PRes T :=
  parse_newick_subtreeF agg dp fp (newick.length + 1) newick

/-- Embedding of `parse_newick` (source lines 272-330): require the trailing
terminator, strip it, and delegate to `parse_newick_subtree`. -/
def parse_newick {T D F : Type} (newick : List Char)
    (agg : List Char → List T → D → F → T)
    (dp : List Char → D) (fp : List Char → F) : PRes T :=
  if newick.getLast? = some ';' then
    parse_newick_subtree newick.dropLast agg dp fp
  else .err .formatError

/-- Value of a decimal digit string read in base 10. -/
def digitsToNat (ds : List Char) : Nat :=
  ds.foldl (fun a c => 10 * a + (c.toNat - '0'.toNat)) 0

/-- Optional leading sign; returns whether the value is negated and the rest. -/
def parseSign : List Char → Bool × List Char
  | '+' :: r => (false, r)
  | '-' :: r => (true, r)
  | r => (false, r)

/-- Modelled from the spec: the Python builtin `float` conversion applied by
the default distance strategy to non-empty text, restricted to finite
decimal literals (optional surrounding whitespace and sign, integer and
fractional digit runs with at least one digit, optional signed exponent).
The special inputs the builtin also accepts (infinities, nan, digit-group
underscores) have no rational value or do not occur in this library's
domain and are left out of the model. -/
def pyFloat (s0 : List Char) : Option ℚ :=
  let s := pstrip s0
  let (neg, s1) := parseSign s
  let (mant, expPart) := s1.span (fun c => !(c == 'e' || c == 'E'))
  let (ip, rest2) := mant.span Char.isDigit
  let fpOpt : Option (List Char) :=
    match rest2 with
    | [] => some []
    | '.' :: fp => if fp.all Char.isDigit then some fp else none
    | _ => none
  match fpOpt with
  | none => none
  | some fp =>
    if ip = [] ∧ fp = [] then none
    else
      let mantQ : ℚ := (digitsToNat ip : ℚ) + (digitsToNat fp : ℚ) / ((10 : ℚ) ^ fp.length)
      let expValOpt : Option Int :=
        match expPart with
        | [] => some 0
        | _ :: rest3 =>
          let (eneg, ds) := parseSign rest3
          if ds ≠ [] ∧ ds.all Char.isDigit then
            some (if eneg then -(digitsToNat ds : Int) else (digitsToNat ds : Int))
          else none
      match expValOpt with
      | none => none
      | some e =>
        let q := if 0 ≤ e then mantQ * (10 : ℚ) ^ e.toNat else mantQ / (10 : ℚ) ^ (-e).toNat
        some (if neg then -q else q)

/-- Embedding of `_simple_distance` (source lines 198-199): `None` for the
empty string, the numeric value for numeric text, ValueError otherwise. -/
def _simple_distance (dist : List Char) : PRes (Option ℚ) :=
  if dist = [] then .ok none
  else
    match pyFloat dist with
    | some q => .ok (some q)
    | none => .err .valueError

/-- Embedding of `_simple_feature` (source lines 201-202): identity. -/
def _simple_feature (feat : List Char) : List Char := feat

/-- The raw parse tree: what `parse_newick_subtree` builds when the three
callbacks are the identity-like constructors.  Fields: label, children,
raw distance text, raw comment text. -/
inductive RawNode : Type where
  | mk : List Char → List RawNode → List Char → List Char → RawNode

/-- Strict post-order fold of a raw parse tree through the three callbacks:
every child is folded before its parent's aggregator call, children in
left-to-right order. -/
def foldPost {T D F : Type} (agg : List Char → List T → D → F → T)
    (dp : List Char → D) (fp : List Char → F) : RawNode → T
  | .mk lab cs d c =>
    agg lab (cs.attach.map (fun x => foldPost agg dp fp x.1)) (dp d) (fp c)
decreasing_by
  have hx := List.sizeOf_lt_of_mem x.2
  simp only [RawNode.mk.sizeOf_spec]
  omega

/-- A Python value as produced by the docstring's `tree_as_dict` aggregator:
either a bare label string or a one-key dict from a label to a list. -/
inductive PyVal : Type where
  | str : List Char → PyVal
  | dict : List Char → List PyVal → PyVal

/-- The `tree_as_dict` aggregator from the source docstring: wrap non-empty
children under the node's label, return the bare label for leaves. -/
def tree_as_dict (label : List Char) (children : List PyVal)
    (_ : PRes (Option ℚ)) (_ : List Char) : PyVal :=
  match children with
  | [] => .str label
  | _ => .dict label children

/-- Strings whose parentheses and brackets are properly nested: delimiters
occur only as matched, non-crossing pairs. -/
inductive WellNested : List Char → Prop where
  | nil : WellNested []
  | other {c : Char} {t : List Char} :
      c ≠ '(' → c ≠ ')' → c ≠ '[' → c ≠ ']' →
      WellNested t → WellNested (c :: t)
  | paren {inner rest : List Char} :
      WellNested inner → WellNested rest →
      WellNested ('(' :: inner ++ ')' :: rest)
  | bracket {inner rest : List Char} :
      WellNested inner → WellNested rest →
      WellNested ('[' :: inner ++ ']' :: rest)

/-- Index of the first comma at paren depth `p = 0` and bracket depth
`b = 0`, scanning with clamped depth counters. -/
def ftc : List Char → Nat → Nat → Option Nat
  | [], _, _ => none
  | c :: rest, p, b =>
    if c = '(' then (ftc rest (p + 1) b).map (· + 1)
    else if c = ')' then (ftc rest (p - 1) b).map (· + 1)
    else if c = '[' then (ftc rest p (b + 1)).map (· + 1)
    else if c = ']' then (ftc rest p (b - 1)).map (· + 1)
    else if c = ',' ∧ p = 0 ∧ b = 0 then some 0
    else (ftc rest p b).map (· + 1)

/-- Number of commas at paren depth `p = 0` and bracket depth `b = 0`,
scanning with clamped depth counters. -/
def tlcAux : List Char → Nat → Nat → Nat
  | [], _, _ => 0
  | c :: rest, p, b =>
    if c = '(' then tlcAux rest (p + 1) b
    else if c = ')' then tlcAux rest (p - 1) b
    else if c = '[' then tlcAux rest p (b + 1)
    else if c = ']' then tlcAux rest p (b - 1)
    else if c = ',' ∧ p = 0 ∧ b = 0 then tlcAux rest p b + 1
    else tlcAux rest p b

/-- Number of top-level commas of a fragment: commas nested inside no
parenthesis or bracket pair. -/
def topLevelCommas (s : List Char) : Nat := tlcAux s 0 0

/-- Modelled from the spec's words for the node field extractor: the
children block is the substring strictly between the leading parenthesis
and its balancing closer (`matchingCloserIdx`), the remainder is split at
the first bracket and first colon as in steps 2-4. -/
def nodeFieldsSpec (s : List Char) :
    Option (List Char × List Char × List Char × List Char) :=
  if s.head? = some '(' then
    match matchingCloserIdx s '(' ')' 1 with
    | some j =>
      let fields := restFields (s.drop (j + 1))
      some ((s.take j).drop 1, fields.1, fields.2.1, fields.2.2)
    | none => none
  else
    let fields := restFields s
    some ([], fields.1, fields.2.1, fields.2.2)

/-- Modelled from the spec's words for the sibling splitter: split a fragment
at its top-level commas only (commas at clamped paren depth `p = 0` and
bracket depth `b = 0`), keeping the segments in order and keeping an empty
segment for every empty slot; `acc` accumulates the segment being scanned. -/
def splitTopAux : List Char → Nat → Nat → List Char → List (List Char)
  | [], _, _, acc => [acc]
  | c :: rest, p, b, acc =>
    if c = '(' then splitTopAux rest (p + 1) b (acc ++ [c])
    else if c = ')' then splitTopAux rest (p - 1) b (acc ++ [c])
    else if c = '[' then splitTopAux rest p (b + 1) (acc ++ [c])
    else if c = ']' then splitTopAux rest p (b - 1) (acc ++ [c])
    else if c = ',' ∧ p = 0 ∧ b = 0 then acc :: splitTopAux rest p b []
    else splitTopAux rest p b (acc ++ [c])

/-- The in-order list of top-level comma-separated segments of a fragment
(modelled from the spec's words; empty slots stay as empty segments). -/
def splitTop (t : List Char) : List (List Char) := splitTopAux t 0 0 []

/-- Modelled from the spec's words for the sibling splitter: the boundary of
the first node of a well-nested fragment scanned from offset `u.length` is
one before its first top-level comma, or one before the end of the fragment
when it has no top-level comma. -/
def nneSpec (u v : List Char) : Int :=
  match ftc v 0 0 with
  | some r => ((u.length + r : Nat) : Int) - 1
  | none => ((u.length + v.length : Nat) : Int) - 1

/-! ### Characterisations of the index scanners -/

theorem firstIdx_some_iff {p : Nat → Bool} :
    ∀ {n lo j : Nat}, firstIdx p lo n = some j ↔
      (lo ≤ j ∧ j < lo + n ∧ p j = true ∧ ∀ m, lo ≤ m → m < j → p m = false) := by
  intro n
  induction n with
  | zero =>
    intro lo j
    constructor
    · intro h; cases h
    · rintro ⟨h1, h2, _⟩; omega
  | succ n ih =>
    intro lo j
    by_cases h : p lo = true
    · constructor
      · intro hs
        simp only [firstIdx, h, if_true] at hs
        cases hs
        exact ⟨le_refl _, by omega, h, fun m hm1 hm2 => by omega⟩
      · rintro ⟨h1, h2, h3, h4⟩
        have hj : j = lo := by
          by_contra hne
          have hfalse : p lo = false := h4 lo (le_refl _) (by omega)
          rw [h] at hfalse; cases hfalse
        subst hj
        simp [firstIdx, h]
    · have hf : p lo = false := by
        cases hpl : p lo
        · rfl
        · exact absurd hpl h
      constructor
      · intro hs
        simp only [firstIdx, hf, Bool.false_eq_true, if_false] at hs
        rcases ih.mp hs with ⟨h1, h2, h3, h4⟩
        refine ⟨by omega, by omega, h3, ?_⟩
        intro m hm1 hm2
        rcases Nat.eq_or_lt_of_le hm1 with he | hl
        · rw [← he]; exact hf
        · exact h4 m hl hm2
      · rintro ⟨h1, h2, h3, h4⟩
        have hne : j ≠ lo := by
          intro he; rw [he] at h3; rw [h3] at hf; cases hf
        simp only [firstIdx, hf, Bool.false_eq_true, if_false]
        exact ih.mpr ⟨by omega, by omega, h3, fun m hm1 hm2 => h4 m (by omega) hm2⟩

theorem firstIdx_none_iff {p : Nat → Bool} :
    ∀ {n lo : Nat}, firstIdx p lo n = none ↔
      ∀ m, lo ≤ m → m < lo + n → p m = false := by
  intro n
  induction n with
  | zero =>
    intro lo
    constructor
    · intro _ m hm1 hm2; omega
    · intro _; rfl
  | succ n ih =>
    intro lo
    by_cases h : p lo = true
    · constructor
      · intro hs
        simp only [firstIdx, h, if_true] at hs
        exact absurd hs (Option.some_ne_none lo)
      · intro hall
        have := hall lo (le_refl _) (by omega)
        rw [h] at this; cases this
    · have hf : p lo = false := by
        cases hpl : p lo
        · rfl
        · exact absurd hpl h
      constructor
      · intro hs
        simp only [firstIdx, hf, Bool.false_eq_true, if_false] at hs
        intro m hm1 hm2
        rcases Nat.eq_or_lt_of_le hm1 with he | hl
        · rw [← he]; exact hf
        · exact ih.mp hs m hl (by omega)
      · intro hall
        simp only [firstIdx, hf, Bool.false_eq_true, if_false]
        exact ih.mpr (fun m hm1 hm2 => hall m (by omega) (by omega))

theorem firstIdx_isSome_of {p : Nat → Bool} {n lo j : Nat}
    (h1 : lo ≤ j) (h2 : j < lo + n) (h3 : p j = true) :
    ∃ k, firstIdx p lo n = some k ∧ k ≤ j := by
  cases hf : firstIdx p lo n with
  | none =>
    have := firstIdx_none_iff.mp hf j h1 h2
    rw [h3] at this; cases this
  | some k =>
    rcases firstIdx_some_iff.mp hf with ⟨k1, k2, k3, k4⟩
    refine ⟨k, rfl, ?_⟩
    by_contra hlt
    have hjk : j < k := by omega
    have := k4 j h1 hjk
    rw [h3] at this; cases this

theorem strIndex_some_iff {s : List Char} {c : Char} {start i : Nat} :
    strIndex s c start = some i ↔
      (start ≤ i ∧ i < s.length ∧ s[i]? = some c ∧
        ∀ m, start ≤ m → m < i → s[m]? ≠ some c) := by
  unfold strIndex
  rw [firstIdx_some_iff]
  constructor
  · rintro ⟨h1, h2, h3, h4⟩
    have h3' : s[i]? = some c := of_decide_eq_true h3
    have hi : i < s.length := by
      rcases List.getElem?_eq_some_iff.mp h3' with ⟨h, _⟩
      exact h
    refine ⟨h1, hi, h3', ?_⟩
    intro m hm1 hm2 hmc
    have := h4 m hm1 hm2
    rw [decide_eq_false_iff_not] at this
    exact this hmc
  · rintro ⟨h1, h2, h3, h4⟩
    refine ⟨h1, by omega, decide_eq_true h3, ?_⟩
    intro m hm1 hm2
    exact decide_eq_false (h4 m hm1 hm2)

theorem strIndex_none_iff {s : List Char} {c : Char} {start : Nat} :
    strIndex s c start = none ↔
      ∀ m, start ≤ m → m < s.length → s[m]? ≠ some c := by
  unfold strIndex
  rw [firstIdx_none_iff]
  constructor
  · intro h m hm1 hm2 hmc
    have := h m hm1 (by omega)
    rw [decide_eq_false_iff_not] at this
    exact this hmc
  · intro h m hm1 hm2
    apply decide_eq_false
    intro hmc
    have hm : m < s.length := by
      rcases List.getElem?_eq_some_iff.mp hmc with ⟨hh, _⟩
      exact hh
    exact h m hm1 hm hmc

theorem strIndex_exists {s : List Char} {c : Char} {start j : Nat}
    (h1 : start ≤ j) (h2 : s[j]? = some c) :
    ∃ k, strIndex s c start = some k ∧ k ≤ j := by
  have hj : j < s.length := by
    rcases List.getElem?_eq_some_iff.mp h2 with ⟨hh, _⟩
    exact hh
  exact firstIdx_isSome_of h1 (by omega) (decide_eq_true h2)

/-! ### Prefix-sum facts about delimiter balance -/

theorem balOf_append (op cl : Char) (x y : List Char) :
    balOf op cl (x ++ y) = balOf op cl x + balOf op cl y := by
  simp [balOf]

theorem preOf_succ (s : List Char) (op cl : Char) (n : Nat) :
    preOf s op cl (n + 1) =
      preOf s op cl n + (match s[n]? with | some c => stepP op cl c | none => 0) := by
  unfold preOf
  rw [List.take_succ, balOf_append]
  congr 1
  cases h : s[n]? with
  | none => simp [balOf]
  | some c => simp [balOf]

theorem preOf_eq_of_zero_steps (s : List Char) (op cl : Char) (a : Nat) :
    ∀ b : Nat, a ≤ b →
    (∀ k, a ≤ k → k < b → ∀ c, s[k]? = some c → stepP op cl c = 0) →
    preOf s op cl b = preOf s op cl a := by
  intro b hab
  induction b, hab using Nat.le_induction with
  | base => intro _; rfl
  | succ n hn ih =>
    intro h
    rw [preOf_succ]
    have h0 : (match s[n]? with | some c => stepP op cl c | none => 0) = 0 := by
      cases hc : s[n]? with
      | none => rfl
      | some c => exact h n hn (by omega) c hc
    rw [h0, add_zero]
    exact ih (fun k hk1 hk2 c hc => h k hk1 (by omega) c hc)

theorem stepP_cases (op cl c : Char) :
    stepP op cl c = 1 ∨ stepP op cl c = -1 ∨ stepP op cl c = 0 := by
  unfold stepP
  split
  · exact Or.inl rfl
  · split
    · exact Or.inr (Or.inl rfl)
    · exact Or.inr (Or.inr rfl)

theorem stepP_le_one (op cl c : Char) : stepP op cl c ≤ 1 := by
  rcases stepP_cases op cl c with h | h | h <;> omega

theorem stepP_of_op (op cl : Char) (h : op ≠ cl) : stepP op cl op = -1 := by
  unfold stepP
  rw [if_neg h, if_pos rfl]

theorem stepP_of_cl (op cl : Char) : stepP op cl cl = 1 := by
  unfold stepP
  rw [if_pos rfl]

theorem stepP_of_other (op cl c : Char) (h1 : c ≠ cl) (h2 : c ≠ op) :
    stepP op cl c = 0 := by
  unfold stepP
  rw [if_neg h1, if_neg h2]

theorem stepP_eq_one_iff (op cl c : Char) : stepP op cl c = 1 ↔ c = cl := by
  constructor
  · intro h
    by_contra hc
    unfold stepP at h
    rw [if_neg hc] at h
    by_cases h2 : c = op
    · rw [if_pos h2] at h; omega
    · rw [if_neg h2] at h; omega
  · intro h
    rw [h]
    exact stepP_of_cl op cl

theorem matchIdx_some_iff {s : List Char} {op cl : Char} {start j : Nat} :
    matchingCloserIdx s op cl start = some j ↔
      (start ≤ j ∧ j < s.length ∧
        0 < preOf s op cl (j + 1) - preOf s op cl start ∧
        ∀ m, start ≤ m → m < j →
          preOf s op cl (m + 1) - preOf s op cl start ≤ 0) := by
  unfold matchingCloserIdx
  rw [firstIdx_some_iff]
  constructor
  · rintro ⟨h1, h2, h3, h4⟩
    refine ⟨h1, by omega, of_decide_eq_true h3, ?_⟩
    intro m hm1 hm2
    have := h4 m hm1 hm2
    rw [decide_eq_false_iff_not] at this
    omega
  · rintro ⟨h1, h2, h3, h4⟩
    refine ⟨h1, by omega, decide_eq_true h3, ?_⟩
    intro m hm1 hm2
    apply decide_eq_false
    have := h4 m hm1 hm2
    omega

/-! ### Correctness and termination of the delimiter scanner -/

theorem findClosingF_ok_bounds {op cl : Char} :
    ∀ {fuel : Nat} {s : List Char} {start j : Nat},
      findClosingF op cl fuel s start = .ok j → start ≤ j ∧ j < s.length := by
  intro fuel
  induction fuel with
  | zero => intro s start j h; cases h
  | succ fuel ih =>
    intro s start j h
    unfold findClosingF at h
    cases hcl : strIndex s cl start with
    | none =>
      simp only [hcl] at h
      exact PRes.noConfusion h
    | some nc =>
      simp only [hcl] at h
      cases hop : strIndex s op start with
      | none =>
        simp only [hop] at h
        cases h
        rcases strIndex_some_iff.mp hcl with ⟨a, b, _, _⟩
        exact ⟨a, b⟩
      | some no =>
        simp only [hop] at h
        by_cases hlt : nc < no
        · rw [if_pos hlt] at h
          cases h
          rcases strIndex_some_iff.mp hcl with ⟨a, b, _, _⟩
          exact ⟨a, b⟩
        · rw [if_neg hlt] at h
          cases h1 : findClosingF op cl fuel s (no + 1) with
          | ok skip =>
            simp only [h1] at h
            have h2 := ih h
            have h3 := ih h1
            rcases strIndex_some_iff.mp hop with ⟨a, b, _, _⟩
            exact ⟨by omega, h2.2⟩
          | err e =>
            simp only [h1] at h
            exact PRes.noConfusion h
          | fuelOut =>
            simp only [h1] at h
            exact PRes.noConfusion h

theorem findClosingF_ne_fuelOut {op cl : Char} :
    ∀ {fuel : Nat} {s : List Char} {start : Nat}, s.length - start < fuel →
      findClosingF op cl fuel s start ≠ .fuelOut := by
  intro fuel
  induction fuel with
  | zero => intro s start h; omega
  | succ fuel ih =>
    intro s start h
    cases hcl : strIndex s cl start with
    | none =>
      unfold findClosingF
      simp only [hcl]
      intro hc; cases hc
    | some nc =>
      cases hop : strIndex s op start with
      | none =>
        unfold findClosingF
        simp only [hcl, hop]
        intro hc; cases hc
      | some no =>
        unfold findClosingF
        simp only [hcl, hop]
        by_cases hlt : nc < no
        · rw [if_pos hlt]; intro hc; cases hc
        · rw [if_neg hlt]
          rcases strIndex_some_iff.mp hop with ⟨hno1, hno2, _, _⟩
          cases h1 : findClosingF op cl fuel s (no + 1) with
          | ok skip =>
            simp only [h1]
            have hb := findClosingF_ok_bounds h1
            exact ih (by omega)
          | err e => simp only [h1]; intro hc; cases hc
          | fuelOut => exact absurd h1 (ih (by omega))

theorem find_closing_ne_fuelOut (s : List Char) (start : Nat) (op cl : Char) :
    _find_closing s start op cl ≠ .fuelOut :=
  findClosingF_ne_fuelOut (by omega)

theorem find_closing_ok_bounds {s : List Char} {start j : Nat} {op cl : Char}
    (h : _find_closing s start op cl = .ok j) : start ≤ j ∧ j < s.length :=
  findClosingF_ok_bounds h

theorem findClosingF_correct {op cl : Char} (hne : op ≠ cl) :
    ∀ {fuel : Nat} {s : List Char} {start j : Nat},
      s.length - start < fuel →
      matchingCloserIdx s op cl start = some j →
      findClosingF op cl fuel s start = .ok j := by
  intro fuel
  induction fuel with
  | zero => intro s start j h hm; omega
  | succ fuel ih =>
    intro s start j hfuel hm
    rcases matchIdx_some_iff.mp hm with ⟨hj1, hj2, hj3, hj4⟩
    obtain ⟨cj, hcj⟩ : ∃ cj, s[j]? = some cj := ⟨s[j], List.getElem?_eq_getElem hj2⟩
    have hstep : stepP op cl cj = 1 := by
      have hsucc := preOf_succ s op cl j
      simp only [hcj] at hsucc
      have hprev : preOf s op cl j - preOf s op cl start ≤ 0 := by
        rcases Nat.eq_or_lt_of_le hj1 with he | hl
        · rw [← he]; omega
        · have hmin := hj4 (j - 1) (by omega) (by omega)
          have hj1' : j - 1 + 1 = j := by omega
          rw [hj1'] at hmin
          exact hmin
      rcases stepP_cases op cl cj with h1 | h1 | h1
      · exact h1
      · rw [h1] at hsucc; omega
      · rw [h1] at hsucc; omega
    have hcjcl : cj = cl := (stepP_eq_one_iff op cl cj).mp hstep
    rw [hcjcl] at hcj
    obtain ⟨c0, hc0, hc0j⟩ := strIndex_exists hj1 hcj
    rcases strIndex_some_iff.mp hc0 with ⟨hc01, hc02, hc03, hc04⟩
    cases hop : strIndex s op start with
    | none =>
      have hnoop := strIndex_none_iff.mp hop
      have hconst : preOf s op cl c0 = preOf s op cl start :=
        preOf_eq_of_zero_steps s op cl start c0 hc01 (fun k hk1 hk2 c hc => by
          apply stepP_of_other
          · intro he; subst he; exact hc04 k hk1 hk2 hc
          · intro he; subst he; exact hnoop k hk1 (by omega) hc)
      have hp : 0 < preOf s op cl (c0 + 1) - preOf s op cl start := by
        have hsucc := preOf_succ s op cl c0
        simp only [hc03] at hsucc
        rw [stepP_of_cl] at hsucc
        omega
      have hc0eq : c0 = j := by
        by_contra hne2
        have hlt : c0 < j := by omega
        have := hj4 c0 hc01 hlt
        omega
      unfold findClosingF
      simp only [hc0, hop]
      rw [hc0eq]
    | some no =>
      rcases strIndex_some_iff.mp hop with ⟨hno1, hno2, hno3, hno4⟩
      by_cases hlt : c0 < no
      · have hconst : preOf s op cl c0 = preOf s op cl start :=
          preOf_eq_of_zero_steps s op cl start c0 hc01 (fun k hk1 hk2 c hc => by
            apply stepP_of_other
            · intro he; subst he; exact hc04 k hk1 hk2 hc
            · intro he; subst he; exact hno4 k hk1 (by omega) hc)
        have hp : 0 < preOf s op cl (c0 + 1) - preOf s op cl start := by
          have hsucc := preOf_succ s op cl c0
          simp only [hc03] at hsucc
          rw [stepP_of_cl] at hsucc
          omega
        have hc0eq : c0 = j := by
          by_contra hne2
          have hlt2 : c0 < j := by omega
          have := hj4 c0 hc01 hlt2
          omega
        unfold findClosingF
        simp only [hc0, hop]
        rw [if_pos hlt, hc0eq]
      · have hnec : no ≠ c0 := by
          intro he
          rw [he] at hno3
          rw [hno3] at hc03
          exact hne (Option.some.inj hc03)
        have hnoc0 : no < c0 := by omega
        have hconst : preOf s op cl no = preOf s op cl start :=
          preOf_eq_of_zero_steps s op cl start no hno1 (fun k hk1 hk2 c hc => by
            apply stepP_of_other
            · intro he; subst he; exact hc04 k hk1 (by omega) hc
            · intro he; subst he; exact hno4 k hk1 hk2 hc)
        have hpre_no1 : preOf s op cl (no + 1) = preOf s op cl start - 1 := by
          have hsucc := preOf_succ s op cl no
          simp only [hno3] at hsucc
          rw [stepP_of_op op cl hne] at hsucc
          omega
        have hjno : no < j := by
          by_contra hle
          push_neg at hle
          rcases Nat.eq_or_lt_of_le hle with he | hl
          · rw [he] at hj3; omega
          · have hz : preOf s op cl (j + 1) = preOf s op cl start :=
              preOf_eq_of_zero_steps s op cl start (j + 1) (by omega)
                (fun k hk1 hk2 c hc => by
                  apply stepP_of_other
                  · intro he2; subst he2; exact hc04 k hk1 (by omega) hc
                  · intro he2; subst he2; exact hno4 k hk1 (by omega) hc)
            omega
        obtain ⟨k, hk, hkj⟩ :
            ∃ k, matchingCloserIdx s op cl (no + 1) = some k ∧ k ≤ j := by
          unfold matchingCloserIdx
          exact firstIdx_isSome_of (by omega : no + 1 ≤ j)
            (by omega : j < (no + 1) + (s.length - (no + 1)))
            (decide_eq_true (by omega :
              0 < preOf s op cl (j + 1) - preOf s op cl (no + 1)))
        rcases matchIdx_some_iff.mp hk with ⟨hk1, hk2, hk3, hk4⟩
        obtain ⟨ck, hck⟩ : ∃ ck, s[k]? = some ck := ⟨s[k], List.getElem?_eq_getElem hk2⟩
        have hkprev : preOf s op cl k - preOf s op cl (no + 1) ≤ 0 := by
          rcases Nat.eq_or_lt_of_le hk1 with he | hl
          · rw [← he]; omega
          · have hmin := hk4 (k - 1) (by omega) (by omega)
            have h5 : k - 1 + 1 = k := by omega
            rw [h5] at hmin
            exact hmin
        have hDk : preOf s op cl (k + 1) - preOf s op cl (no + 1) = 1 := by
          have hsucc := preOf_succ s op cl k
          simp only [hck] at hsucc
          have := stepP_le_one op cl ck
          omega
        have hpreK : preOf s op cl (k + 1) = preOf s op cl start := by omega
        have hkj2 : k + 1 ≤ j := by
          rcases Nat.eq_or_lt_of_le hkj with he | hl
          · rw [he] at hpreK; omega
          · omega
        have hmj2 : matchingCloserIdx s op cl (k + 1) = some j := by
          apply matchIdx_some_iff.mpr
          refine ⟨hkj2, hj2, by omega, ?_⟩
          intro m hm1 hm2
          have := hj4 m (by omega) hm2
          omega
        have hrec1 : findClosingF op cl fuel s (no + 1) = .ok k :=
          ih (by omega) hk
        unfold findClosingF
        simp only [hc0, hop]
        rw [if_neg hlt]
        simp only [hrec1]
        exact ih (by omega) hmj2

theorem balOf_take_le_of_le (s : List Char) (op cl : Char)
    (h : ∀ n, n ≤ s.length → balOf op cl (s.take n) ≤ 0) :
    ∀ n, balOf op cl (s.take n) ≤ 0 := by
  intro n
  rcases le_or_lt n s.length with hle | hgt
  · exact h n hle
  · rw [List.take_of_length_le (by omega)]
    have h2 := h s.length (le_refl _)
    rw [List.take_of_length_le (le_refl _)] at h2
    exact h2

/-- Claim C1: for every string of properly balanced delimiters (total balance
zero and no prefix with more closers than openers) and a start offset placed
just past an opening delimiter, `_find_closing` returns the index of the
closing delimiter that balances that opening one — the first position at
which nesting depth returns to zero, skipping nested same-type pairs; in
particular on the spec's example string the answer from offset 1 is 6. -/
theorem claim_C1_delimiter_scanner :
    (∀ (s : List Char) (op cl : Char) (start : Nat),
      op ≠ cl → 1 ≤ start → s[start - 1]? = some op →
      balOf op cl s = 0 → (∀ n : Nat, balOf op cl (s.take n) ≤ 0) →
      ∃ j, matchingCloserIdx s op cl start = some j ∧
        _find_closing s start op cl = PRes.ok j) ∧
    _find_closing ("((),())()".toList) 1 '(' ')' = PRes.ok 6 := by
  constructor
  · intro s op cl start hne hst hopch htot hpref
    have hlen : start - 1 < s.length := by
      rcases List.getElem?_eq_some_iff.mp hopch with ⟨hh, _⟩
      exact hh
    have hps : preOf s op cl start ≤ -1 := by
      have hsucc := preOf_succ s op cl (start - 1)
      have h1 : start - 1 + 1 = start := by omega
      rw [h1] at hsucc
      simp only [hopch] at hsucc
      rw [stepP_of_op op cl hne] at hsucc
      have hp1 : preOf s op cl (start - 1) ≤ 0 := hpref (start - 1)
      omega
    have hpl : preOf s op cl s.length = 0 := by
      unfold preOf
      rw [List.take_of_length_le (le_refl _)]
      exact htot
    have hsl : start < s.length := by
      by_contra hge
      push_neg at hge
      have h0 : preOf s op cl start = 0 := by
        unfold preOf
        rw [List.take_of_length_le hge]
        exact htot
      omega
    have hexp : 0 < preOf s op cl ((s.length - 1) + 1) - preOf s op cl start := by
      have h1 : s.length - 1 + 1 = s.length := by omega
      rw [h1, hpl]
      omega
    obtain ⟨j, hj, _⟩ := @firstIdx_isSome_of
      (fun j2 => decide (0 < preOf s op cl (j2 + 1) - preOf s op cl start))
      (s.length - start) start (s.length - 1)
      (show start ≤ s.length - 1 by omega)
      (show s.length - 1 < start + (s.length - start) by omega)
      (decide_eq_true hexp)
    exact ⟨j, hj, findClosingF_correct hne (by omega) hj⟩
  · decide

theorem claim_C1_witness :
    (∃ j, matchingCloserIdx ("((),())()".toList) '(' ')' 1 = some j ∧
      _find_closing ("((),())()".toList) 1 '(' ')' = PRes.ok j) ∧
    matchingCloserIdx ("((),())()".toList) '(' ')' 1 = some 6 := by
  constructor
  · exact claim_C1_delimiter_scanner.1 ("((),())()".toList) '(' ')' 1
      (by decide) (by decide) (by decide) (by decide)
      (balOf_take_le_of_le _ '(' ')' (by decide))
  · decide

/-- Claim C3: `parse_newick` fails with a format error on every input that
does not end with the terminator character, with a result independent of all
three callbacks (so none of them is ever invoked and no partial parsing
occurs); on every input that does end with the terminator it strips exactly
that final character and delegates to the fragment parser with the same
callbacks. -/
theorem claim_C3_parse_tree_terminator :
    ∀ s : List Char,
      (s.getLast? ≠ some ';' →
        ∀ (T D F : Type) (agg : List Char → List T → D → F → T)
          (dp : List Char → D) (fp : List Char → F),
          parse_newick s agg dp fp = PRes.err PErr.formatError) ∧
      (s.getLast? = some ';' →
        ∀ (T D F : Type) (agg : List Char → List T → D → F → T)
          (dp : List Char → D) (fp : List Char → F),
          parse_newick s agg dp fp = parse_newick_subtree s.dropLast agg dp fp) := by
  intro s
  constructor
  · intro h T D F agg dp fp
    unfold parse_newick
    rw [if_neg h]
  · intro h T D F agg dp fp
    unfold parse_newick
    rw [if_pos h]

theorem claim_C3_witness :
    parse_newick ("A".toList)
      (fun l (_ : List (List Char)) (_ : List Char) (_ : List Char) => l) id id =
      PRes.err PErr.formatError ∧
    parse_newick ("A;".toList)
      (fun l (_ : List (List Char)) (_ : List Char) (_ : List Char) => l) id id =
      parse_newick_subtree ("A;".toList).dropLast
        (fun l (_ : List (List Char)) (_ : List Char) (_ : List Char) => l) id id := by
  constructor
  · exact (claim_C3_parse_tree_terminator _).1 (by decide) _ _ _ _ _ _
  · exact (claim_C3_parse_tree_terminator _).2 (by decide) _ _ _ _ _ _

/-- Claim C4: for every trimmed raw node string, `_parts_of_subtree` returns
the spec's 4-tuple: when the string starts with an opening parenthesis the
children block is exactly the substring between it and its balancing closer
and the remainder is everything after that closer, otherwise the children
block is empty; the remainder is split at the first opening bracket with the
comment's final character dropped unconditionally, the pre-comment head is
split at its first colon, and only the label is whitespace-trimmed — all as
recorded by the spec-side `nodeFieldsSpec`. -/
theorem claim_C4_node_field_extractor :
    ∀ (s : List Char) (fields : List Char × List Char × List Char × List Char),
      nodeFieldsSpec s = some fields → _parts_of_subtree s = PRes.ok fields := by
  intro s fields hspec
  unfold nodeFieldsSpec at hspec
  by_cases hh : s.head? = some '('
  · rw [if_pos hh] at hspec
    cases hmi : matchingCloserIdx s '(' ')' 1 with
    | none =>
      simp only [hmi] at hspec
      exact Option.noConfusion hspec
    | some j =>
      simp only [hmi] at hspec
      have hfind : _find_closing s 1 '(' ')' = PRes.ok j :=
        findClosingF_correct (by decide) (by omega) hmi
      unfold _parts_of_subtree
      rw [if_pos hh]
      simp only [hfind]
      exact congrArg PRes.ok (Option.some.inj hspec)
  · rw [if_neg hh] at hspec
    unfold _parts_of_subtree
    rw [if_neg hh]
    exact congrArg PRes.ok (Option.some.inj hspec)

theorem claim_C4_witness :
    nodeFieldsSpec ("(A,B)root:10.0[x=xx]".toList) =
      some ("A,B".toList, "root".toList, "10.0".toList, "x=xx".toList) ∧
    _parts_of_subtree ("(A,B)root:10.0[x=xx]".toList) =
      PRes.ok ("A,B".toList, "root".toList, "10.0".toList, "x=xx".toList) := by
  constructor
  · decide
  · exact claim_C4_node_field_extractor _ _ (by decide)

/-- Claim C6: the default distance strategy `_simple_distance` maps the empty
string to the explicit absent sentinel (never to a numeric zero value), maps
every non-empty numeric string to its numeric value, and fails with a
ValueError on every non-empty non-numeric string — numeric meaning accepted
by the (modelled) builtin float conversion `pyFloat`. -/
theorem claim_C6_simple_distance :
    _simple_distance [] = PRes.ok none ∧
    (∀ q : ℚ, _simple_distance [] ≠ PRes.ok (some q)) ∧
    (∀ s : List Char, s ≠ [] →
      ((∃ q, pyFloat s = some q ∧ _simple_distance s = PRes.ok (some q)) ∨
       (pyFloat s = none ∧ _simple_distance s = PRes.err PErr.valueError))) := by
  refine ⟨rfl, ?_, ?_⟩
  · intro q h
    have h2 : (none : Option ℚ) = some q := PRes.ok.inj h
    exact Option.noConfusion h2
  · intro s hne
    unfold _simple_distance
    rw [if_neg hne]
    cases hp : pyFloat s with
    | some q => exact Or.inl ⟨q, rfl, by simp only [hp]⟩
    | none => exact Or.inr ⟨rfl, by simp only [hp]⟩

theorem claim_C6_witness :
    ((∃ q, pyFloat ("10.5".toList) = some q ∧
        _simple_distance ("10.5".toList) = PRes.ok (some q)) ∨
     (pyFloat ("10.5".toList) = none ∧
        _simple_distance ("10.5".toList) = PRes.err PErr.valueError)) ∧
    (∃ q, pyFloat ("10.5".toList) = some q ∧ q = (21 / 2 : ℚ)) ∧
    ((∃ q, pyFloat ("abc".toList) = some q ∧
        _simple_distance ("abc".toList) = PRes.ok (some q)) ∨
     (pyFloat ("abc".toList) = none ∧
        _simple_distance ("abc".toList) = PRes.err PErr.valueError)) := by
  refine ⟨claim_C6_simple_distance.2.2 _ (by decide), ?_,
    claim_C6_simple_distance.2.2 _ (by decide)⟩
  refine ⟨_, rfl, ?_⟩
  simp [digitsToNat, Char.toNat]
  norm_num

/-- Claim C7: with the docstring's aggregator that wraps a node's children
under its (empty) label in a dict and returns the bare label for leaves,
`parse_newick` applied to the example input produces the nested dict value
of the spec's scenario 2. -/
theorem claim_C7_example_tree :
    parse_newick ("(A,(B,C));".toList) tree_as_dict _simple_distance _simple_feature =
      PRes.ok (PyVal.dict []
        [PyVal.str ("A".toList),
         PyVal.dict [] [PyVal.str ("B".toList), PyVal.str ("C".toList)]]) := by
  rfl

/-- Claim C8: every node whose trimmed text does not start with an opening
parenthesis yields an empty children block from the field extractor, and the
fragment parser then passes an empty children sequence to the aggregator for
that node. -/
theorem claim_C8_no_paren_no_children :
    ∀ (T D F : Type) (agg : List Char → List T → D → F → T)
      (dp : List Char → D) (fp : List Char → F) (fuel : Nat) (s : List Char),
      (pstrip s).head? ≠ some '(' →
      _parts_of_subtree (pstrip s) =
        PRes.ok ([], (restFields (pstrip s)).1, (restFields (pstrip s)).2.1,
          (restFields (pstrip s)).2.2) ∧
      parse_newick_subtreeF agg dp fp (fuel + 1) s =
        PRes.ok (agg (restFields (pstrip s)).1 []
          (dp (restFields (pstrip s)).2.1) (fp (restFields (pstrip s)).2.2)) := by
  intro T D F agg dp fp fuel s hh
  have hparts : _parts_of_subtree (pstrip s) =
      PRes.ok ([], (restFields (pstrip s)).1, (restFields (pstrip s)).2.1,
        (restFields (pstrip s)).2.2) := by
    unfold _parts_of_subtree
    rw [if_neg hh]
  refine ⟨hparts, ?_⟩
  unfold parse_newick_subtreeF
  simp only [hparts]
  rfl

theorem claim_C8_witness :
    _parts_of_subtree (pstrip ("A:1[c]".toList)) =
      PRes.ok ([], (restFields (pstrip ("A:1[c]".toList))).1,
        (restFields (pstrip ("A:1[c]".toList))).2.1,
        (restFields (pstrip ("A:1[c]".toList))).2.2) ∧
    parse_newick_subtreeF
      (fun l (_ : List (List Char)) (_ : List Char) (_ : List Char) => l)
      id id 1 ("A:1[c]".toList) =
      PRes.ok ((restFields (pstrip ("A:1[c]".toList))).1) :=
  claim_C8_no_paren_no_children (List Char) (List Char) (List Char)
    (fun l _ _ _ => l) id id 0 ("A:1[c]".toList) (by decide)

/-- Claim C9: every syntactically empty node text — the whole tree consisting
of just the terminator, a fragment that trims to the empty string, or an
empty sibling slot produced by adjacent commas — parses successfully into
exactly one aggregator call with empty label, no children, and the distance
and feature parsers applied to the empty string: degenerate leaf nodes are
built, never skipped and never an error. -/
theorem claim_C9_empty_nodes :
    (∀ (T D F : Type) (agg : List Char → List T → D → F → T)
      (dp : List Char → D) (fp : List Char → F) (fuel : Nat) (s : List Char),
      pstrip s = [] →
      parse_newick_subtreeF agg dp fp (fuel + 1) s =
        PRes.ok (agg [] [] (dp []) (fp []))) ∧
    (∀ (T D F : Type) (agg : List Char → List T → D → F → T)
      (dp : List Char → D) (fp : List Char → F),
      parse_newick (";".toList) agg dp fp = PRes.ok (agg [] [] (dp []) (fp []))) ∧
    (∀ (T D F : Type) (agg : List Char → List T → D → F → T)
      (dp : List Char → D) (fp : List Char → F),
      parse_newick ("(,);".toList) agg dp fp =
        PRes.ok (agg []
          [agg [] [] (dp []) (fp []), agg [] [] (dp []) (fp [])]
          (dp []) (fp []))) := by
  refine ⟨?_, ?_, ?_⟩
  · intro T D F agg dp fp fuel s hs
    unfold parse_newick_subtreeF
    simp only [hs]
    rfl
  · intro T D F agg dp fp
    rfl
  · intro T D F agg dp fp
    rfl

theorem claim_C9_witness :
    parse_newick_subtreeF
      (fun l (_ : List (List Char)) (_ : List Char) (_ : List Char) => l)
      id id 1 (" ".toList) = PRes.ok [] :=
  claim_C9_empty_nodes.1 (List Char) (List Char) (List Char)
    (fun l _ _ _ => l) id id 0 (" ".toList) (by decide)

/-! ### Whitespace stripping facts -/

theorem length_dropWhile_le' {α : Type} (p : α → Bool) :
    ∀ l : List α, (l.dropWhile p).length ≤ l.length := by
  intro l
  induction l with
  | nil => simp
  | cons a t ih =>
    rw [List.dropWhile_cons]
    by_cases hp : p a
    · rw [if_pos hp]
      simp only [List.length_cons]
      omega
    · rw [if_neg hp]

theorem length_rdropWhile_le' (p : Char → Bool) (l : List Char) :
    (l.rdropWhile p).length ≤ l.length := by
  unfold List.rdropWhile
  rw [List.length_reverse]
  calc (l.reverse.dropWhile p).length ≤ l.reverse.length := length_dropWhile_le' p _
    _ = l.length := List.length_reverse l

theorem pstrip_length_le (s : List Char) : (pstrip s).length ≤ s.length := by
  unfold pstrip
  calc ((s.dropWhile isPySpace).rdropWhile isPySpace).length
      ≤ (s.dropWhile isPySpace).length := length_rdropWhile_le' _ _
    _ ≤ s.length := length_dropWhile_le' _ _

theorem head?_dropWhile_false (p : Char → Bool) :
    ∀ (l : List Char) (c : Char), (l.dropWhile p).head? = some c → p c = false := by
  intro l
  induction l with
  | nil => intro c h; cases h
  | cons a t ih =>
    intro c h
    rw [List.dropWhile_cons] at h
    by_cases hp : p a
    · rw [if_pos hp] at h
      exact ih c h
    · rw [if_neg hp] at h
      cases h
      cases hpa : p a
      · rfl
      · exact absurd hpa hp

theorem rdropWhile_head? (p : Char → Bool) (l : List Char) :
    ∀ (c : Char) (t : List Char), List.rdropWhile p l = c :: t → l.head? = some c := by
  induction l using List.reverseRecOn with
  | nil =>
    intro c t h
    rw [List.rdropWhile_nil] at h
    cases h
  | append_singleton l' a ih =>
    intro c t h
    rw [List.rdropWhile_concat] at h
    by_cases hp : p a
    · rw [if_pos hp] at h
      have hne : l' ≠ [] := by
        intro he
        rw [he, List.rdropWhile_nil] at h
        cases h
      have hh := ih c t h
      simp [List.head?_append, hh]
    · rw [if_neg hp] at h
      rw [h]
      rfl

theorem pstrip_head_not_space {s : List Char} {c : Char}
    (h : (pstrip s).head? = some c) : isPySpace c = false := by
  unfold pstrip at h
  cases hps : (s.dropWhile isPySpace).rdropWhile isPySpace with
  | nil => rw [hps] at h; cases h
  | cons c2 t =>
    rw [hps] at h
    cases h
    exact head?_dropWhile_false isPySpace s c (rdropWhile_head? isPySpace _ c t hps)

theorem pstrip_getLast_not_space {s : List Char} {c : Char}
    (h : (pstrip s).getLast? = some c) : isPySpace c = false := by
  rcases List.getLast?_eq_some_iff.mp h with ⟨ys, hys⟩
  have hne : pstrip s ≠ [] := by rw [hys]; simp
  have hlast : (pstrip s).getLast hne = c := by
    have := List.getLast?_eq_getLast (pstrip s) hne
    rw [h] at this
    exact (Option.some.inj this).symm
  have hnot := List.rdropWhile_last_not isPySpace (s.dropWhile isPySpace) hne
  have hlast2 : (List.rdropWhile isPySpace (s.dropWhile isPySpace)).getLast hne = c := hlast
  rw [hlast2] at hnot
  cases hpc : isPySpace c
  · rfl
  · exact absurd hpc hnot

theorem pstrip_idem (s : List Char) : pstrip (pstrip s) = pstrip s := by
  have h1 : (pstrip s).dropWhile isPySpace = pstrip s := by
    cases hh : pstrip s with
    | nil => rfl
    | cons c t =>
      rw [List.dropWhile_cons]
      have hc : isPySpace c = false := pstrip_head_not_space (by rw [hh]; rfl)
      rw [hc]
      simp
  show ((pstrip s).dropWhile isPySpace).rdropWhile isPySpace = pstrip s
  rw [h1]
  exact List.rdropWhile_idempotent isPySpace (s.dropWhile isPySpace)

theorem lstrip_length_le (s : List Char) : (lstrip s).length ≤ s.length :=
  length_dropWhile_le' isPySpace s

/-! ### Termination of the node-boundary scanner and the splitter -/

theorem nneLoopF_ok_lb :
    ∀ {fuel : Nat} {s : List Char} {ce : Nat} {e : Int},
      ce ≤ s.length → nneLoopF fuel s ce = .ok e →
      ((ce : Int) - 1 ≤ e ∧ (ce < s.length → s[ce]? ≠ some ',' → (ce : Int) ≤ e)) := by
  intro fuel
  induction fuel with
  | zero => intro s ce e _ h; exact PRes.noConfusion h
  | succ fuel ih =>
    intro s ce e hce h
    unfold nneLoopF at h
    cases hc : s[ce]? with
    | none =>
      simp only [hc] at h
      cases h
      have hlen : s.length ≤ ce := List.getElem?_eq_none_iff.mp hc
      constructor
      · omega
      · intro hlt _; omega
    | some c =>
      simp only [hc] at h
      by_cases h1 : c = '('
      · rw [if_pos h1] at h
        cases hf : _find_closing s (ce + 1) '(' ')' with
        | ok j =>
          simp only [hf] at h
          have hb := find_closing_ok_bounds hf
          have hr := ih (by omega) h
          constructor
          · omega
          · intro _ _; omega
        | err e2 => rw [hf] at h; exact PRes.noConfusion h
        | fuelOut => rw [hf] at h; exact PRes.noConfusion h
      · rw [if_neg h1] at h
        by_cases h2 : c = '['
        · rw [if_pos h2] at h
          cases hf : _find_closing s (ce + 1) '[' ']' with
          | ok j =>
            simp only [hf] at h
            have hb := find_closing_ok_bounds hf
            have hr := ih (by omega) h
            constructor
            · omega
            · intro _ _; omega
          | err e2 => rw [hf] at h; exact PRes.noConfusion h
          | fuelOut => rw [hf] at h; exact PRes.noConfusion h
        · rw [if_neg h2] at h
          by_cases h3 : c = ','
          · rw [if_pos h3] at h
            cases h
            constructor
            · omega
            · intro hlt hcomma
              exact absurd (congrArg some h3) hcomma
          · rw [if_neg h3] at h
            have hlt : ce < s.length := by
              by_contra hge
              push_neg at hge
              rw [List.getElem?_eq_none hge] at hc
              cases hc
            have hr := ih (by omega) h
            constructor
            · omega
            · intro _ _; omega

theorem nneLoopF_ne_fuelOut :
    ∀ {fuel : Nat} {s : List Char} {ce : Nat}, s.length - ce < fuel →
      nneLoopF fuel s ce ≠ .fuelOut := by
  intro fuel
  induction fuel with
  | zero => intro s ce h; omega
  | succ fuel ih =>
    intro s ce h
    cases hc : s[ce]? with
    | none =>
      unfold nneLoopF
      simp only [hc]
      intro hcon; cases hcon
    | some c =>
      have hlt : ce < s.length := by
        by_contra hge
        push_neg at hge
        rw [List.getElem?_eq_none hge] at hc
        cases hc
      by_cases h1 : c = '('
      · cases hf : _find_closing s (ce + 1) '(' ')' with
        | ok j =>
          unfold nneLoopF
          simp only [hc]
          rw [if_pos h1]
          simp only [hf]
          have hb := find_closing_ok_bounds hf
          exact ih (by omega)
        | err e2 =>
          unfold nneLoopF
          simp only [hc]
          rw [if_pos h1]
          simp only [hf]
          intro hcon; cases hcon
        | fuelOut => exact absurd hf (find_closing_ne_fuelOut s (ce + 1) '(' ')')
      · by_cases h2 : c = '['
        · cases hf : _find_closing s (ce + 1) '[' ']' with
          | ok j =>
            unfold nneLoopF
            simp only [hc]
            rw [if_neg h1, if_pos h2]
            simp only [hf]
            have hb := find_closing_ok_bounds hf
            exact ih (by omega)
          | err e2 =>
            unfold nneLoopF
            simp only [hc]
            rw [if_neg h1, if_pos h2]
            simp only [hf]
            intro hcon; cases hcon
          | fuelOut => exact absurd hf (find_closing_ne_fuelOut s (ce + 1) '[' ']')
        · unfold nneLoopF
          simp only [hc]
          rw [if_neg h1, if_neg h2]
          by_cases h3 : c = ','
          · rw [if_pos h3]; intro hcon; cases hcon
          · rw [if_neg h3]
            exact ih (by omega)

theorem next_node_end_ne_fuelOut (s : List Char) : _next_node_end s ≠ .fuelOut := by
  simp only [_next_node_end]
  cases hst : (if (pstrip s).head? = some '(' then
      _find_closing (pstrip s) 1 '(' ')' else PRes.ok 0) with
  | ok ce => exact nneLoopF_ne_fuelOut (by omega)
  | err e => intro hcon; cases hcon
  | fuelOut =>
    by_cases hh : (pstrip s).head? = some '('
    · rw [if_pos hh] at hst
      exact absurd hst (find_closing_ne_fuelOut _ 1 '(' ')')
    · rw [if_neg hh] at hst
      exact PRes.noConfusion hst

theorem next_node_end_ok_nonneg {s : List Char} {e : Int}
    (hne : pstrip s ≠ []) (hh : (pstrip s).head? ≠ some ',')
    (h : _next_node_end s = .ok e) : 0 ≤ e := by
  simp only [_next_node_end] at h
  by_cases hp : (pstrip s).head? = some '('
  · rw [if_pos hp] at h
    cases hf : _find_closing (pstrip s) 1 '(' ')' with
    | ok ce =>
      simp only [hf] at h
      have hb := find_closing_ok_bounds hf
      have hr := nneLoopF_ok_lb (by omega) h
      omega
    | err e2 => rw [hf] at h; exact PRes.noConfusion h
    | fuelOut => rw [hf] at h; exact PRes.noConfusion h
  · rw [if_neg hp] at h
    have hlen : 0 < (pstrip s).length := by
      cases hps : pstrip s with
      | nil => exact absurd hps hne
      | cons a t => simp
    have hr := nneLoopF_ok_lb (by omega) h
    have hg : (pstrip s)[0]? ≠ some ',' := by
      rw [← List.head?_eq_getElem?]
      exact hh
    have := hr.2 hlen hg
    omega

theorem pySliceTo_length_le (s : List Char) (k : Int) :
    (pySliceTo s k).length ≤ s.length := by
  unfold pySliceTo
  by_cases h : k < 0
  · rw [if_pos h, List.length_take]; omega
  · rw [if_neg h, List.length_take]; omega

theorem pySliceFrom_length_le (s : List Char) (k : Int) :
    (pySliceFrom s k).length ≤ s.length := by
  unfold pySliceFrom
  by_cases h : k < 0
  · rw [if_pos h, List.length_drop]; omega
  · rw [if_neg h, List.length_drop]; omega

theorem split_rest_length_lt {s' : List Char} {e : Int} (hs : s' ≠ []) (he : 0 ≤ e) :
    (if (lstrip (pySliceFrom s' (e + 1))).head? = some ',' then
        (lstrip (pySliceFrom s' (e + 1))).drop 1
      else lstrip (pySliceFrom s' (e + 1))).length < s'.length := by
  have hslen : 1 ≤ s'.length := by
    cases hs' : s' with
    | nil => exact absurd hs' hs
    | cons a t => simp
  have h1 : (pySliceFrom s' (e + 1)).length ≤ s'.length - 1 := by
    unfold pySliceFrom
    rw [if_neg (by omega : ¬ e + 1 < 0), List.length_drop]
    have : 1 ≤ (e + 1).toNat := by omega
    omega
  have h2 : (lstrip (pySliceFrom s' (e + 1))).length ≤ s'.length - 1 :=
    le_trans (lstrip_length_le _) h1
  by_cases hcomma : (lstrip (pySliceFrom s' (e + 1))).head? = some ','
  · rw [if_pos hcomma, List.length_drop]
    omega
  · rw [if_neg hcomma]
    omega

theorem split_nodesF_ne_fuelOut :
    ∀ {fuel : Nat} {s : List Char}, (pstrip s).length < fuel →
      split_nodesF fuel s ≠ .fuelOut := by
  intro fuel
  induction fuel with
  | zero => intro s h; omega
  | succ fuel ih =>
    intro s h
    simp only [split_nodesF]
    by_cases h0 : pstrip s = []
    · rw [if_pos h0]
      intro hcon; cases hcon
    · rw [if_neg h0]
      have hlen : 1 ≤ (pstrip s).length := by
        cases hps : pstrip s with
        | nil => exact absurd hps h0
        | cons a t => simp
      by_cases h1 : pstrip s = [',']
      · rw [if_pos h1]
        intro hcon; cases hcon
      · rw [if_neg h1]
        by_cases h2 : (pstrip s).head? = some ','
        · rw [if_pos h2]
          cases hrec : split_nodesF fuel ((pstrip s).drop 1) with
          | ok l => simp only [hrec]; intro hcon; cases hcon
          | err e => simp only [hrec]; intro hcon; cases hcon
          | fuelOut =>
            refine absurd hrec (ih ?_)
            have hp := pstrip_length_le ((pstrip s).drop 1)
            rw [List.length_drop] at hp
            omega
        · rw [if_neg h2]
          by_cases h3 : (pstrip s).getLast? = some ','
          · rw [if_pos h3]
            cases hrec : split_nodesF fuel (pstrip s).dropLast with
            | ok l => simp only [hrec]; intro hcon; cases hcon
            | err e => simp only [hrec]; intro hcon; cases hcon
            | fuelOut =>
              refine absurd hrec (ih ?_)
              have hp := pstrip_length_le (pstrip s).dropLast
              rw [List.length_dropLast] at hp
              omega
          · rw [if_neg h3]
            cases hnne : _next_node_end (pstrip s) with
            | err e => simp only [hnne]; intro hcon; cases hcon
            | fuelOut => exact absurd hnne (next_node_end_ne_fuelOut _)
            | ok e =>
              simp only [hnne]
              have he0 : 0 ≤ e := next_node_end_ok_nonneg
                (by rw [pstrip_idem]; exact h0) (by rw [pstrip_idem]; exact h2) hnne
              cases hrec : split_nodesF fuel
                  (if (lstrip (pySliceFrom (pstrip s) (e + 1))).head? = some ',' then
                    (lstrip (pySliceFrom (pstrip s) (e + 1))).drop 1
                  else lstrip (pySliceFrom (pstrip s) (e + 1))) with
              | ok l => simp only [hrec]; intro hcon; cases hcon
              | err e2 => simp only [hrec]; intro hcon; cases hcon
              | fuelOut =>
                refine absurd hrec (ih ?_)
                have hb := @split_rest_length_lt (pstrip s) e h0 he0
                have hp := pstrip_length_le
                  (if (lstrip (pySliceFrom (pstrip s) (e + 1))).head? = some ',' then
                    (lstrip (pySliceFrom (pstrip s) (e + 1))).drop 1
                  else lstrip (pySliceFrom (pstrip s) (e + 1)))
                omega

theorem split_nodes_ne_fuelOut (s : List Char) : _split_nodes s ≠ .fuelOut :=
  split_nodesF_ne_fuelOut (by have := pstrip_length_le s; omega)

theorem split_nodesF_elem_le :
    ∀ {fuel : Nat} {s : List Char} {l : List (List Char)},
      split_nodesF fuel s = .ok l → ∀ x ∈ l, x.length ≤ (pstrip s).length := by
  intro fuel
  induction fuel with
  | zero => intro s l h; exact PRes.noConfusion h
  | succ fuel ih =>
    intro s l h
    simp only [split_nodesF] at h
    by_cases h0 : pstrip s = []
    · rw [if_pos h0] at h
      cases h
      intro x hx; cases hx
    · rw [if_neg h0] at h
      have hlen : 1 ≤ (pstrip s).length := by
        cases hps : pstrip s with
        | nil => exact absurd hps h0
        | cons a t => simp
      by_cases h1 : pstrip s = [',']
      · rw [if_pos h1] at h
        cases h
        intro x hx
        have hx2 : x = [] := by
          rcases List.mem_cons.mp hx with h2 | h2
          · exact h2
          · rcases List.mem_cons.mp h2 with h3 | h3
            · exact h3
            · cases h3
        rw [hx2]
        simp
      · rw [if_neg h1] at h
        by_cases h2 : (pstrip s).head? = some ','
        · rw [if_pos h2] at h
          cases hrec : split_nodesF fuel ((pstrip s).drop 1) with
          | ok l2 =>
            simp only [hrec] at h
            cases h
            intro x hx
            rcases List.mem_cons.mp hx with rfl | hx2
            · simp
            · have hb := ih hrec x hx2
              have hp := pstrip_length_le ((pstrip s).drop 1)
              rw [List.length_drop] at hp
              omega
          | err e => simp only [hrec] at h; exact PRes.noConfusion h
          | fuelOut => simp only [hrec] at h; exact PRes.noConfusion h
        · rw [if_neg h2] at h
          by_cases h3 : (pstrip s).getLast? = some ','
          · rw [if_pos h3] at h
            cases hrec : split_nodesF fuel (pstrip s).dropLast with
            | ok l2 =>
              simp only [hrec] at h
              cases h
              intro x hx
              rcases List.mem_append.mp hx with hx2 | hx2
              · have hb := ih hrec x hx2
                have hp := pstrip_length_le (pstrip s).dropLast
                rw [List.length_dropLast] at hp
                omega
              · have hx3 : x = [] := by
                  rcases List.mem_cons.mp hx2 with h4 | h4
                  · exact h4
                  · cases h4
                rw [hx3]
                simp
            | err e => simp only [hrec] at h; exact PRes.noConfusion h
            | fuelOut => simp only [hrec] at h; exact PRes.noConfusion h
          · rw [if_neg h3] at h
            cases hnne : _next_node_end (pstrip s) with
            | err e => simp only [hnne] at h; exact PRes.noConfusion h
            | fuelOut => simp only [hnne] at h; exact PRes.noConfusion h
            | ok e =>
              simp only [hnne] at h
              cases hrec : split_nodesF fuel
                  (if (lstrip (pySliceFrom (pstrip s) (e + 1))).head? = some ',' then
                    (lstrip (pySliceFrom (pstrip s) (e + 1))).drop 1
                  else lstrip (pySliceFrom (pstrip s) (e + 1))) with
              | ok l2 =>
                simp only [hrec] at h
                cases h
                intro x hx
                rcases List.mem_cons.mp hx with rfl | hx2
                · exact pySliceTo_length_le _ _
                · have hb := ih hrec x hx2
                  have hp := pstrip_length_le
                    (if (lstrip (pySliceFrom (pstrip s) (e + 1))).head? = some ',' then
                      (lstrip (pySliceFrom (pstrip s) (e + 1))).drop 1
                    else lstrip (pySliceFrom (pstrip s) (e + 1)))
                  have hq : (if (lstrip (pySliceFrom (pstrip s) (e + 1))).head? = some ',' then
                        (lstrip (pySliceFrom (pstrip s) (e + 1))).drop 1
                      else lstrip (pySliceFrom (pstrip s) (e + 1))).length ≤ (pstrip s).length := by
                    have hr1 := lstrip_length_le (pySliceFrom (pstrip s) (e + 1))
                    have hr2 := pySliceFrom_length_le (pstrip s) (e + 1)
                    by_cases hcm : (lstrip (pySliceFrom (pstrip s) (e + 1))).head? = some ','
                    · rw [if_pos hcm, List.length_drop]; omega
                    · rw [if_neg hcm]; omega
                  omega
              | err e2 => simp only [hrec] at h; exact PRes.noConfusion h
              | fuelOut => simp only [hrec] at h; exact PRes.noConfusion h

theorem parts_ne_fuelOut (s : List Char) : _parts_of_subtree s ≠ .fuelOut := by
  by_cases hh : s.head? = some '('
  · cases hf : _find_closing s 1 '(' ')' with
    | ok ce =>
      unfold _parts_of_subtree
      rw [if_pos hh]
      simp only [hf]
      intro hcon; cases hcon
    | err e =>
      unfold _parts_of_subtree
      rw [if_pos hh]
      simp only [hf]
      intro hcon; cases hcon
    | fuelOut => exact absurd hf (find_closing_ne_fuelOut s 1 '(' ')')
  · unfold _parts_of_subtree
    rw [if_neg hh]
    intro hcon; cases hcon

theorem parts_children_bound {s : List Char} {cs lab ds cm : List Char}
    (h : _parts_of_subtree s = .ok (cs, lab, ds, cm)) :
    cs.length + 2 ≤ s.length ∨ cs = [] := by
  unfold _parts_of_subtree at h
  by_cases hh : s.head? = some '('
  · rw [if_pos hh] at h
    cases hf : _find_closing s 1 '(' ')' with
    | ok ce =>
      simp only [hf] at h
      have hb := find_closing_ok_bounds hf
      have h2 := PRes.ok.inj h
      left
      have h3 := congrArg Prod.fst h2
      simp only at h3
      rw [← h3, List.length_drop, List.length_take]
      rw [min_eq_left (le_of_lt hb.2)]
      omega
    | err e => simp only [hf] at h; exact PRes.noConfusion h
    | fuelOut => simp only [hf] at h; exact PRes.noConfusion h
  · rw [if_neg hh] at h
    right
    have h2 := PRes.ok.inj h
    have h3 := congrArg Prod.fst h2
    simp only at h3
    exact h3.symm

theorem mapPRes_ne_fuelOut {α β : Type} {f : α → PRes β} :
    ∀ {l : List α}, (∀ x ∈ l, f x ≠ .fuelOut) → mapPRes f l ≠ .fuelOut := by
  intro l
  induction l with
  | nil => intro _ hcon; cases hcon
  | cons x xs ih =>
    intro hall
    cases hx : f x with
    | fuelOut => exact absurd hx (hall x (List.mem_cons_self x xs))
    | err e =>
      unfold mapPRes
      simp only [hx]
      intro hcon; cases hcon
    | ok y =>
      cases hxs : mapPRes f xs with
      | fuelOut => exact absurd hxs (ih (fun a ha => hall a (List.mem_cons_of_mem x ha)))
      | err e =>
        unfold mapPRes
        simp only [hx, hxs]
        intro hcon; cases hcon
      | ok ys =>
        unfold mapPRes
        simp only [hx, hxs]
        intro hcon; cases hcon

theorem parse_newick_subtreeF_ne_fuelOut :
    ∀ {fuel : Nat} {T D F : Type} (agg : List Char → List T → D → F → T)
      (dp : List Char → D) (fp : List Char → F) {s : List Char},
      s.length < fuel → parse_newick_subtreeF agg dp fp fuel s ≠ .fuelOut := by
  intro fuel
  induction fuel with
  | zero => intro T D F agg dp fp s h; omega
  | succ fuel ih =>
    intro T D F agg dp fp s h
    cases hparts : _parts_of_subtree (pstrip s) with
    | fuelOut => exact absurd hparts (parts_ne_fuelOut _)
    | err e =>
      unfold parse_newick_subtreeF
      simp only [hparts]
      intro hcon; cases hcon
    | ok parts =>
      obtain ⟨cs, lab, ds, cm⟩ := parts
      cases hsplit : _split_nodes cs with
      | fuelOut => exact absurd hsplit (split_nodes_ne_fuelOut _)
      | err e =>
        unfold parse_newick_subtreeF
        simp only [hparts, hsplit]
        intro hcon; cases hcon
      | ok childStrs =>
        cases hmap : mapPRes (parse_newick_subtreeF agg dp fp fuel) childStrs with
        | ok children =>
          unfold parse_newick_subtreeF
          simp only [hparts, hsplit, hmap]
          intro hcon; cases hcon
        | err e =>
          unfold parse_newick_subtreeF
          simp only [hparts, hsplit, hmap]
          intro hcon; cases hcon
        | fuelOut =>
          refine absurd hmap (mapPRes_ne_fuelOut ?_)
          intro x hx
          have hxle := split_nodesF_elem_le hsplit x hx
          have hc2 := pstrip_length_le cs
          rcases parts_children_bound hparts with hb | hbe
          · have hps := pstrip_length_le s
            exact ih agg dp fp (by omega)
          · rw [hbe] at hsplit
            have hnil : _split_nodes ([] : List Char) = PRes.ok [] := rfl
            rw [hnil] at hsplit
            have hcz : childStrs = [] := (PRes.ok.inj hsplit).symm
            rw [hcz] at hx
            cases hx

/-- Claim C10: for every finite input string and all (terminating, total)
callbacks, the parser terminates — returning a value or raising an error:
with fuel one more than the input length, none of the fuelled recursions
(delimiter scanner, node-boundary scanner, sibling splitter, tree builder,
whole-tree entry point) ever runs out of fuel, because the scanner strictly
advances its position and the splitter and builder recurse on strictly
shorter strings. -/
theorem claim_C10_termination :
    (∀ (s : List Char) (start : Nat) (op cl : Char),
      findClosingF op cl (s.length + 1) s start ≠ PRes.fuelOut) ∧
    (∀ s : List Char, _next_node_end s ≠ PRes.fuelOut) ∧
    (∀ s : List Char, _split_nodes s ≠ PRes.fuelOut) ∧
    (∀ (T D F : Type) (agg : List Char → List T → D → F → T)
      (dp : List Char → D) (fp : List Char → F) (s : List Char),
      parse_newick_subtree s agg dp fp ≠ PRes.fuelOut) ∧
    (∀ (T D F : Type) (agg : List Char → List T → D → F → T)
      (dp : List Char → D) (fp : List Char → F) (s : List Char),
      parse_newick s agg dp fp ≠ PRes.fuelOut) := by
  refine ⟨?_, ?_, ?_, ?_, ?_⟩
  · intro s start op cl
    exact findClosingF_ne_fuelOut (by omega)
  · exact next_node_end_ne_fuelOut
  · exact split_nodes_ne_fuelOut
  · intro T D F agg dp fp s
    unfold parse_newick_subtree
    exact parse_newick_subtreeF_ne_fuelOut agg dp fp (by omega)
  · intro T D F agg dp fp s
    unfold parse_newick
    by_cases hh : s.getLast? = some ';'
    · rw [if_pos hh]
      unfold parse_newick_subtree
      exact parse_newick_subtreeF_ne_fuelOut agg dp fp (by omega)
    · rw [if_neg hh]
      intro hcon; cases hcon

/-! ### Post-order aggregation -/

theorem foldPost_mk {T D F : Type} (agg : List Char → List T → D → F → T)
    (dp : List Char → D) (fp : List Char → F)
    (lab : List Char) (cs : List RawNode) (d c : List Char) :
    foldPost agg dp fp (.mk lab cs d c) =
      agg lab (cs.map (foldPost agg dp fp)) (dp d) (fp c) := by
  rw [foldPost]
  congr 1
  exact List.attach_map_val cs (foldPost agg dp fp)

theorem parse_fusionF :
    ∀ (fuel : Nat) {T D F : Type} (agg : List Char → List T → D → F → T)
      (dp : List Char → D) (fp : List Char → F) (s : List Char),
      parse_newick_subtreeF agg dp fp fuel s =
        PRes.map (foldPost agg dp fp)
          (parse_newick_subtreeF RawNode.mk id id fuel s) := by
  intro fuel
  induction fuel with
  | zero => intro T D F agg dp fp s; rfl
  | succ fuel ih =>
    intro T D F agg dp fp s
    cases hparts : _parts_of_subtree (pstrip s) with
    | fuelOut =>
      unfold parse_newick_subtreeF
      simp only [hparts]
      rfl
    | err e =>
      unfold parse_newick_subtreeF
      simp only [hparts]
      rfl
    | ok parts =>
      obtain ⟨cs, lab, ds, cm⟩ := parts
      cases hsplit : _split_nodes cs with
      | fuelOut =>
        unfold parse_newick_subtreeF
        simp only [hparts, hsplit]
        rfl
      | err e =>
        unfold parse_newick_subtreeF
        simp only [hparts, hsplit]
        rfl
      | ok childStrs =>
        have hlist : ∀ l : List (List Char),
            mapPRes (parse_newick_subtreeF agg dp fp fuel) l =
              PRes.map (List.map (foldPost agg dp fp))
                (mapPRes (parse_newick_subtreeF RawNode.mk id id fuel) l) := by
          intro l
          induction l with
          | nil => rfl
          | cons x xs ihl =>
            cases hx : parse_newick_subtreeF RawNode.mk id id fuel x with
            | fuelOut =>
              unfold mapPRes
              rw [ih agg dp fp x]
              simp only [hx]
              rfl
            | err e =>
              unfold mapPRes
              rw [ih agg dp fp x]
              simp only [hx]
              rfl
            | ok t =>
              cases hxs : mapPRes (parse_newick_subtreeF RawNode.mk id id fuel) xs with
              | fuelOut =>
                unfold mapPRes
                rw [ih agg dp fp x, ihl]
                simp only [hx, hxs]
                rfl
              | err e =>
                unfold mapPRes
                rw [ih agg dp fp x, ihl]
                simp only [hx, hxs]
                rfl
              | ok ts =>
                unfold mapPRes
                rw [ih agg dp fp x, ihl]
                simp only [hx, hxs]
                rfl
        cases hmap : mapPRes (parse_newick_subtreeF RawNode.mk id id fuel) childStrs with
        | fuelOut =>
          unfold parse_newick_subtreeF
          simp only [hparts, hsplit, hlist childStrs, hmap]
          rfl
        | err e =>
          unfold parse_newick_subtreeF
          simp only [hparts, hsplit, hlist childStrs, hmap]
          rfl
        | ok ts =>
          unfold parse_newick_subtreeF
          simp only [hparts, hsplit, hlist childStrs, hmap]
          simp only [PRes.map, foldPost_mk]
          rfl

/-- Claim C5: for every input and all three callbacks, the fragment parser
equals the strict post-order fold of the raw parse tree (the parse with the
identity constructors) through the aggregator: the aggregator is applied
exactly once per parsed node, each node's children folded left to right and
completed before the parent's aggregator call; the same holds through the
whole-tree entry point, and with a trace-collecting aggregator the label
trace of the spec's example comes out in post-order. -/
theorem claim_C5_postorder_aggregation :
    (∀ (T D F : Type) (agg : List Char → List T → D → F → T)
      (dp : List Char → D) (fp : List Char → F) (fuel : Nat) (s : List Char),
      parse_newick_subtreeF agg dp fp fuel s =
        PRes.map (foldPost agg dp fp)
          (parse_newick_subtreeF RawNode.mk id id fuel s)) ∧
    (∀ (T D F : Type) (agg : List Char → List T → D → F → T)
      (dp : List Char → D) (fp : List Char → F) (s : List Char),
      parse_newick s agg dp fp =
        PRes.map (foldPost agg dp fp) (parse_newick s RawNode.mk id id)) ∧
    parse_newick ("(A,(B,C));".toList)
      (fun l (cs : List (List (List Char))) (_ : List Char) (_ : List Char) =>
        cs.flatten ++ [l]) id id =
      PRes.ok ["A".toList, "B".toList, "C".toList, [], []] := by
  refine ⟨?_, ?_, ?_⟩
  · intro T D F agg dp fp fuel s
    exact parse_fusionF fuel agg dp fp s
  · intro T D F agg dp fp s
    unfold parse_newick
    by_cases hh : s.getLast? = some ';'
    · simp only [if_pos hh]
      unfold parse_newick_subtree
      exact parse_fusionF _ agg dp fp _
    · simp only [if_neg hh]
      rfl
  · rfl

/-! ### Well-nested strings: inversions and delimiter balance -/

theorem isPySpace_ne_delim {c : Char} (h : isPySpace c = true) :
    c ≠ '(' ∧ c ≠ ')' ∧ c ≠ '[' ∧ c ≠ ']' ∧ c ≠ ',' := by
  unfold isPySpace at h
  simp only [Bool.or_eq_true, beq_iff_eq] at h
  rcases h with ((((h | h) | h) | h) | h) | h <;> subst h <;>
    exact ⟨by decide, by decide, by decide, by decide, by decide⟩

theorem wn_head_ne_closer {c : Char} {t : List Char} (h : WellNested (c :: t)) :
    c ≠ ')' ∧ c ≠ ']' := by
  cases h with
  | other h1 h2 h3 h4 _ => exact ⟨h2, h4⟩
  | paren _ _ => exact ⟨by decide, by decide⟩
  | bracket _ _ => exact ⟨by decide, by decide⟩

theorem wn_cons_inv {c : Char} {t : List Char} (h : WellNested (c :: t))
    (h1 : c ≠ '(') (h2 : c ≠ '[') : WellNested t := by
  cases h with
  | other _ _ _ _ ht => exact ht
  | paren hi hr => exact absurd rfl h1
  | bracket hi hr => exact absurd rfl h2

theorem wn_paren_inv {t : List Char} (h : WellNested ('(' :: t)) :
    ∃ inner rest, t = inner ++ ')' :: rest ∧ WellNested inner ∧ WellNested rest := by
  cases h with
  | other h1 _ _ _ _ => exact absurd rfl h1
  | paren hi hr => exact ⟨_, _, rfl, hi, hr⟩

theorem wn_bracket_inv {t : List Char} (h : WellNested ('[' :: t)) :
    ∃ inner rest, t = inner ++ ']' :: rest ∧ WellNested inner ∧ WellNested rest := by
  cases h with
  | other _ _ h3 _ _ => exact absurd rfl h3
  | bracket hi hr => exact ⟨_, _, rfl, hi, hr⟩

theorem wn_concat_inv :
    ∀ {u : List Char}, WellNested u → ∀ {t : List Char} {c : Char},
      u = t ++ [c] → c ≠ '(' → c ≠ ')' → c ≠ '[' → c ≠ ']' → WellNested t := by
  intro u hu
  induction hu with
  | nil =>
    intro t c he _ _ _ _
    rcases List.append_eq_nil.mp he.symm with ⟨_, h2⟩
    cases h2
  | @other d rest h1 h2 h3 h4 ht ih =>
    intro t c he hc1 hc2 hc3 hc4
    cases t with
    | nil =>
      injection he with he1 he2
      subst he2
      exact WellNested.nil
    | cons t0 ts =>
      have he' : d :: rest = t0 :: (ts ++ [c]) := he
      injection he' with he1 he2
      subst he1
      exact WellNested.other h1 h2 h3 h4 (ih he2 hc1 hc2 hc3 hc4)
  | @paren inner rest hi hr ihinner ihrest =>
    intro t c he hc1 hc2 hc3 hc4
    have hrne : rest ≠ [] := by
      intro hre
      subst hre
      have h1 : (('(' :: inner) ++ [')']).getLast? = some ')' := List.getLast?_concat _
      rw [he, List.getLast?_concat] at h1
      exact hc2 (Option.some.inj h1)
    obtain ⟨rest', hre0⟩ := List.getLast?_eq_some_iff.mp
      (List.getLast?_eq_getLast rest hrne)
    set c2 := rest.getLast hrne with hc2def
    have hre : rest = rest' ++ [c2] := hre0
    have he2 : (('(' :: inner) ++ ')' :: rest') ++ [c2] = t ++ [c] := by
      rw [← he, hre]
      simp
    have ht : t = ('(' :: inner) ++ ')' :: rest' := by
      have hd := congrArg List.dropLast he2
      rw [List.dropLast_concat, List.dropLast_concat] at hd
      exact hd.symm
    have hc2eq : c2 = c := by
      have hg := congrArg List.getLast? he2
      rw [List.getLast?_concat, List.getLast?_concat] at hg
      exact Option.some.inj hg
    subst ht
    exact WellNested.paren hi (ihrest hre (by rw [hc2eq]; exact hc1)
      (by rw [hc2eq]; exact hc2) (by rw [hc2eq]; exact hc3) (by rw [hc2eq]; exact hc4))
  | @bracket inner rest hi hr ihinner ihrest =>
    intro t c he hc1 hc2 hc3 hc4
    have hrne : rest ≠ [] := by
      intro hre
      subst hre
      have h1 : (('[' :: inner) ++ [']']).getLast? = some ']' := List.getLast?_concat _
      rw [he, List.getLast?_concat] at h1
      exact hc4 (Option.some.inj h1)
    obtain ⟨rest', hre0⟩ := List.getLast?_eq_some_iff.mp
      (List.getLast?_eq_getLast rest hrne)
    set c2 := rest.getLast hrne with hc2def
    have hre : rest = rest' ++ [c2] := hre0
    have he2 : (('[' :: inner) ++ ']' :: rest') ++ [c2] = t ++ [c] := by
      rw [← he, hre]
      simp
    have ht : t = ('[' :: inner) ++ ']' :: rest' := by
      have hd := congrArg List.dropLast he2
      rw [List.dropLast_concat, List.dropLast_concat] at hd
      exact hd.symm
    have hc2eq : c2 = c := by
      have hg := congrArg List.getLast? he2
      rw [List.getLast?_concat, List.getLast?_concat] at hg
      exact Option.some.inj hg
    subst ht
    exact WellNested.bracket hi (ihrest hre (by rw [hc2eq]; exact hc1)
      (by rw [hc2eq]; exact hc2) (by rw [hc2eq]; exact hc3) (by rw [hc2eq]; exact hc4))

theorem wn_dropWhile : ∀ {t : List Char}, WellNested t →
    WellNested (t.dropWhile isPySpace) := by
  intro t
  induction t with
  | nil => intro h; exact h
  | cons c t2 ih =>
    intro h
    rw [List.dropWhile_cons]
    by_cases hp : isPySpace c = true
    · rw [if_pos hp]
      rcases isPySpace_ne_delim hp with ⟨h1, h2, h3, h4, _⟩
      exact ih (wn_cons_inv h h1 h3)
    · rw [if_neg hp]
      exact h

theorem wn_rdropWhile : ∀ {t : List Char}, WellNested t →
    WellNested (t.rdropWhile isPySpace) := by
  intro t
  induction t using List.reverseRecOn with
  | nil => intro h; rw [List.rdropWhile_nil]; exact h
  | append_singleton t2 a ih =>
    intro h
    rw [List.rdropWhile_concat]
    by_cases hp : isPySpace a = true
    · rw [if_pos hp]
      rcases isPySpace_ne_delim hp with ⟨h1, h2, h3, h4, _⟩
      exact ih (wn_concat_inv h rfl h1 h2 h3 h4)
    · rw [if_neg hp]
      exact h

theorem wn_pstrip {t : List Char} (h : WellNested t) : WellNested (pstrip t) :=
  wn_rdropWhile (wn_dropWhile h)

theorem balOf_nil (op cl : Char) : balOf op cl [] = 0 := rfl

theorem balOf_cons (op cl c : Char) (t : List Char) :
    balOf op cl (c :: t) = stepP op cl c + balOf op cl t := by
  simp [balOf]

theorem stepP_zero_of_not_delim {op cl c : Char}
    (hpair : (op = '(' ∧ cl = ')') ∨ (op = '[' ∧ cl = ']'))
    (h1 : c ≠ '(') (h2 : c ≠ ')') (h3 : c ≠ '[') (h4 : c ≠ ']') :
    stepP op cl c = 0 := by
  rcases hpair with ⟨ho, hc⟩ | ⟨ho, hc⟩
  · subst ho; subst hc
    exact stepP_of_other _ _ _ h2 h1
  · subst ho; subst hc
    exact stepP_of_other _ _ _ h4 h3

theorem wn_bal_total {op cl : Char}
    (hpair : (op = '(' ∧ cl = ')') ∨ (op = '[' ∧ cl = ']')) :
    ∀ {t : List Char}, WellNested t → balOf op cl t = 0 := by
  intro t h
  induction h with
  | nil => rfl
  | @other c t2 h1 h2 h3 h4 ht ih =>
    rw [balOf_cons, stepP_zero_of_not_delim hpair h1 h2 h3 h4, ih]
    ring
  | @paren inner rest hi hr ihi ihr =>
    have he : ('(' :: inner) ++ ')' :: rest = '(' :: (inner ++ ')' :: rest) := by simp
    rw [he, balOf_cons, balOf_append, balOf_cons, ihi, ihr]
    rcases hpair with ⟨ho, hc⟩ | ⟨ho, hc⟩
    · subst ho; subst hc
      rw [stepP_of_op _ _ (by decide), stepP_of_cl]
      ring
    · subst ho; subst hc
      rw [stepP_of_other _ _ _ (by decide) (by decide),
        stepP_of_other _ _ _ (by decide) (by decide)]
      ring
  | @bracket inner rest hi hr ihi ihr =>
    have he : ('[' :: inner) ++ ']' :: rest = '[' :: (inner ++ ']' :: rest) := by simp
    rw [he, balOf_cons, balOf_append, balOf_cons, ihi, ihr]
    rcases hpair with ⟨ho, hc⟩ | ⟨ho, hc⟩
    · subst ho; subst hc
      rw [stepP_of_other _ _ _ (by decide) (by decide),
        stepP_of_other _ _ _ (by decide) (by decide)]
      ring
    · subst ho; subst hc
      rw [stepP_of_op _ _ (by decide), stepP_of_cl]
      ring

theorem wn_bal_prefix {op cl : Char}
    (hpair : (op = '(' ∧ cl = ')') ∨ (op = '[' ∧ cl = ']')) :
    ∀ {t : List Char}, WellNested t → ∀ x y : List Char, t = x ++ y →
      balOf op cl x ≤ 0 := by
  intro t h
  induction h with
  | nil =>
    intro x y he
    have hx : x = [] := by
      cases x with
      | nil => rfl
      | cons a b => cases he
    rw [hx, balOf_nil]
  | @other c t2 h1 h2 h3 h4 ht ih =>
    intro x y he
    cases x with
    | nil => rw [balOf_nil]
    | cons x0 xs =>
      have he' : c :: t2 = x0 :: (xs ++ y) := he
      injection he' with he1 he2
      subst he1
      rw [balOf_cons, stepP_zero_of_not_delim hpair h1 h2 h3 h4]
      have hb := ih xs y he2
      omega
  | @paren inner rest hi hr ihi ihr =>
    intro x y he
    cases x with
    | nil => rw [balOf_nil]
    | cons x0 xs =>
      have he' : '(' :: (inner ++ ')' :: rest) = x0 :: (xs ++ y) := by
        simpa using he
      injection he' with he1 he2
      have hv : stepP op cl '(' + stepP op cl ')' ≤ 0 ∧ stepP op cl '(' ≤ 0 := by
        rcases hpair with ⟨ho, hc⟩ | ⟨ho, hc⟩
        · subst ho; subst hc
          rw [stepP_of_op _ _ (by decide), stepP_of_cl]
          omega
        · subst ho; subst hc
          rw [stepP_of_other _ _ _ (by decide) (by decide),
            stepP_of_other _ _ _ (by decide) (by decide)]
          omega
      subst he1
      rw [balOf_cons]
      rcases List.append_eq_append_iff.mp he2 with ⟨a', ha1, ha2⟩ | ⟨c', hc1, hc2⟩
      · cases a' with
        | nil =>
          rw [ha1]
          simp only [List.append_nil]
          rw [wn_bal_total hpair hi]
          omega
        | cons a0 a'' =>
          have ha2' : ')' :: rest = a0 :: (a'' ++ y) := ha2
          injection ha2' with hb1 hb2
          rw [ha1, balOf_append, balOf_cons, wn_bal_total hpair hi, ← hb1]
          have hrb := ihr a'' y hb2
          omega
      · have hb := ihi xs c' hc1
        omega
  | @bracket inner rest hi hr ihi ihr =>
    intro x y he
    cases x with
    | nil => rw [balOf_nil]
    | cons x0 xs =>
      have he' : '[' :: (inner ++ ']' :: rest) = x0 :: (xs ++ y) := by
        simpa using he
      injection he' with he1 he2
      have hv : stepP op cl '[' + stepP op cl ']' ≤ 0 ∧ stepP op cl '[' ≤ 0 := by
        rcases hpair with ⟨ho, hc⟩ | ⟨ho, hc⟩
        · subst ho; subst hc
          rw [stepP_of_other _ _ _ (by decide) (by decide),
            stepP_of_other _ _ _ (by decide) (by decide)]
          omega
        · subst ho; subst hc
          rw [stepP_of_op _ _ (by decide), stepP_of_cl]
          omega
      subst he1
      rw [balOf_cons]
      rcases List.append_eq_append_iff.mp he2 with ⟨a', ha1, ha2⟩ | ⟨c', hc1, hc2⟩
      · cases a' with
        | nil =>
          rw [ha1]
          simp only [List.append_nil]
          rw [wn_bal_total hpair hi]
          omega
        | cons a0 a'' =>
          have ha2' : ']' :: rest = a0 :: (a'' ++ y) := ha2
          injection ha2' with hb1 hb2
          rw [ha1, balOf_append, balOf_cons, wn_bal_total hpair hi, ← hb1]
          have hrb := ihr a'' y hb2
          omega
      · have hb := ihi xs c' hc1
        omega

theorem matchIdx_context {u w r' : List Char} {op cl : Char}
    (_hne : op ≠ cl)
    (hpref : ∀ x y : List Char, w = x ++ y → balOf op cl x ≤ 0)
    (htot : balOf op cl w = 0) :
    matchingCloserIdx (u ++ op :: (w ++ cl :: r')) op cl (u.length + 1) =
      some (u.length + 1 + w.length) := by
  have hlen : (u ++ op :: (w ++ cl :: r')).length
      = u.length + 1 + w.length + 1 + r'.length := by
    simp [List.length_append]
    omega
  have htake : ∀ k, k ≤ w.length + 1 →
      (u ++ op :: (w ++ cl :: r')).take (u.length + 1 + k)
        = u ++ op :: (w ++ cl :: r').take k := by
    intro k hk
    rw [List.take_append_eq_append_take,
      List.take_of_length_le (by omega : u.length ≤ u.length + 1 + k)]
    congr 1
    have h1 : u.length + 1 + k - u.length = k + 1 := by omega
    rw [h1]
    rfl
  have hpre : ∀ k, k ≤ w.length + 1 →
      preOf (u ++ op :: (w ++ cl :: r')) op cl (u.length + 1 + k)
        = balOf op cl u + stepP op cl op + balOf op cl ((w ++ cl :: r').take k) := by
    intro k hk
    unfold preOf
    rw [htake k hk, balOf_append, balOf_cons]
    ring
  have hpre0 : preOf (u ++ op :: (w ++ cl :: r')) op cl (u.length + 1)
      = balOf op cl u + stepP op cl op := by
    have h0 := hpre 0 (by omega)
    simpa [balOf] using h0
  have hwtake : ∀ k, k ≤ w.length → (w ++ cl :: r').take k = w.take k := by
    intro k hk
    rw [List.take_append_eq_append_take]
    have h1 : k - w.length = 0 := by omega
    rw [h1]
    simp
  have hwtake2 : (w ++ cl :: r').take (w.length + 1) = w ++ [cl] := by
    rw [List.take_append_eq_append_take,
      List.take_of_length_le (by omega : w.length ≤ w.length + 1)]
    have h1 : w.length + 1 - w.length = 1 := by omega
    rw [h1]
    rfl
  apply matchIdx_some_iff.mpr
  refine ⟨by omega, by omega, ?_, ?_⟩
  · have h1 : u.length + 1 + w.length + 1 = u.length + 1 + (w.length + 1) := by omega
    rw [h1, hpre (w.length + 1) (le_refl _), hpre0, hwtake2, balOf_append, htot,
      balOf_cons, balOf_nil, stepP_of_cl]
    omega
  · intro m hm1 hm2
    obtain ⟨k', hk'⟩ : ∃ k', m = u.length + 1 + k' := ⟨m - (u.length + 1), by omega⟩
    have hk'lt : k' < w.length := by omega
    have h1 : m + 1 = u.length + 1 + (k' + 1) := by omega
    rw [h1, hpre (k' + 1) (by omega), hpre0, hwtake (k' + 1) (by omega)]
    have hb := hpref (w.take (k' + 1)) (w.drop (k' + 1)) (List.take_append_drop _ _).symm
    omega

theorem find_closing_context {u w r' : List Char} {op cl : Char}
    (hne : op ≠ cl)
    (hpref : ∀ x y : List Char, w = x ++ y → balOf op cl x ≤ 0)
    (htot : balOf op cl w = 0) :
    _find_closing (u ++ op :: (w ++ cl :: r')) (u.length + 1) op cl =
      PRes.ok (u.length + 1 + w.length) :=
  findClosingF_correct hne (by omega) (matchIdx_context hne hpref htot)

/-! ### The clamped top-level-comma scan and well-nested segments -/

theorem ftc_elevated :
    ∀ {t : List Char}, WellNested t → ∀ (p b : Nat) (v : List Char),
      ¬(p = 0 ∧ b = 0) →
      ftc (t ++ v) p b = (ftc v p b).map (· + t.length) := by
  intro t h
  induction h with
  | nil =>
    intro p b v hpb
    simp only [List.nil_append, List.length_nil]
    cases ftc v p b <;> simp
  | @other c t2 h1 h2 h3 h4 ht ih =>
    intro p b v hpb
    have hcons : (c :: t2) ++ v = c :: (t2 ++ v) := rfl
    rw [hcons]
    simp only [ftc]
    rw [if_neg h1, if_neg h2, if_neg h3, if_neg h4,
      if_neg (fun hcc => hpb ⟨hcc.2.1, hcc.2.2⟩), ih p b v hpb]
    cases ftc v p b with
    | none => simp
    | some a => simp [List.length_cons]; omega
  | @paren inner rest hi hr ihi ihr =>
    intro p b v hpb
    have hcons : (('(' :: inner) ++ ')' :: rest) ++ v
        = '(' :: (inner ++ (')' :: (rest ++ v))) := by simp
    rw [hcons]
    simp only [ftc]
    rw [if_pos trivial]
    rw [ihi (p + 1) b (')' :: (rest ++ v)) (by rintro ⟨hq, _⟩; omega)]
    have hstep : ftc (')' :: (rest ++ v)) (p + 1) b = (ftc (rest ++ v) p b).map (· + 1) := by
      simp only [ftc]
      rw [if_neg (by decide), if_pos trivial]
      have h2 : p + 1 - 1 = p := by omega
      rw [h2]
    rw [hstep, ihr p b v hpb]
    cases ftc v p b with
    | none => simp
    | some a =>
      simp [List.length_append, List.length_cons]
      omega
  | @bracket inner rest hi hr ihi ihr =>
    intro p b v hpb
    have hcons : (('[' :: inner) ++ ']' :: rest) ++ v
        = '[' :: (inner ++ (']' :: (rest ++ v))) := by simp
    rw [hcons]
    simp only [ftc]
    rw [if_neg (by decide), if_neg (by decide), if_pos trivial]
    rw [ihi p (b + 1) (']' :: (rest ++ v)) (by rintro ⟨_, hq⟩; omega)]
    have hstep : ftc (']' :: (rest ++ v)) p (b + 1) = (ftc (rest ++ v) p b).map (· + 1) := by
      simp only [ftc]
      rw [if_neg (by decide), if_neg (by decide), if_neg (by decide), if_pos trivial]
      have h2 : b + 1 - 1 = b := by omega
      rw [h2]
    rw [hstep, ihr p b v hpb]
    cases ftc v p b with
    | none => simp
    | some a =>
      simp [List.length_append, List.length_cons]
      omega

theorem tlc_elevated :
    ∀ {t : List Char}, WellNested t → ∀ (p b : Nat) (v : List Char),
      ¬(p = 0 ∧ b = 0) →
      tlcAux (t ++ v) p b = tlcAux v p b := by
  intro t h
  induction h with
  | nil =>
    intro p b v hpb
    rw [List.nil_append]
  | @other c t2 h1 h2 h3 h4 ht ih =>
    intro p b v hpb
    have hcons : (c :: t2) ++ v = c :: (t2 ++ v) := rfl
    rw [hcons]
    simp only [tlcAux]
    rw [if_neg h1, if_neg h2, if_neg h3, if_neg h4,
      if_neg (fun hcc => hpb ⟨hcc.2.1, hcc.2.2⟩)]
    exact ih p b v hpb
  | @paren inner rest hi hr ihi ihr =>
    intro p b v hpb
    have hcons : (('(' :: inner) ++ ')' :: rest) ++ v
        = '(' :: (inner ++ (')' :: (rest ++ v))) := by simp
    rw [hcons]
    simp only [tlcAux]
    rw [if_pos trivial]
    rw [ihi (p + 1) b (')' :: (rest ++ v)) (by rintro ⟨hq, _⟩; omega)]
    simp only [tlcAux]
    rw [if_neg (by decide), if_pos trivial]
    have h2 : p + 1 - 1 = p := by omega
    rw [h2]
    exact ihr p b v hpb
  | @bracket inner rest hi hr ihi ihr =>
    intro p b v hpb
    have hcons : (('[' :: inner) ++ ']' :: rest) ++ v
        = '[' :: (inner ++ (']' :: (rest ++ v))) := by simp
    rw [hcons]
    simp only [tlcAux]
    rw [if_neg (by decide), if_neg (by decide), if_pos trivial]
    rw [ihi p (b + 1) (']' :: (rest ++ v)) (by rintro ⟨_, hq⟩; omega)]
    simp only [tlcAux]
    rw [if_neg (by decide), if_neg (by decide), if_neg (by decide), if_pos trivial]
    have h2 : b + 1 - 1 = b := by omega
    rw [h2]
    exact ihr p b v hpb

theorem tlcAux_cons_other {c : Char} (h1 : c ≠ '(') (h2 : c ≠ ')')
    (h3 : c ≠ '[') (h4 : c ≠ ']') (t : List Char) (p b : Nat) :
    tlcAux (c :: t) p b =
      (if c = ',' ∧ p = 0 ∧ b = 0 then tlcAux t p b + 1 else tlcAux t p b) := by
  simp only [tlcAux]
  rw [if_neg h1, if_neg h2, if_neg h3, if_neg h4]

theorem tlc_append_top :
    ∀ {t : List Char}, WellNested t → ∀ v : List Char,
      tlcAux (t ++ v) 0 0 = tlcAux t 0 0 + tlcAux v 0 0 := by
  intro t h
  induction h with
  | nil =>
    intro v
    rw [List.nil_append]
    simp [tlcAux]
  | @other c t2 h1 h2 h3 h4 ht ih =>
    intro v
    have hcons : (c :: t2) ++ v = c :: (t2 ++ v) := rfl
    rw [hcons, tlcAux_cons_other h1 h2 h3 h4, tlcAux_cons_other h1 h2 h3 h4]
    by_cases hc : c = ','
    · rw [if_pos ⟨hc, rfl, rfl⟩, if_pos ⟨hc, rfl, rfl⟩, ih v]
      omega
    · rw [if_neg (fun hcc => hc hcc.1), if_neg (fun hcc => hc hcc.1)]
      exact ih v
  | @paren inner rest hi hr ihi ihr =>
    intro v
    have hcons : (('(' :: inner) ++ ')' :: rest) ++ v
        = '(' :: (inner ++ (')' :: (rest ++ v))) := by simp
    have hcons2 : ('(' :: inner) ++ ')' :: rest
        = '(' :: (inner ++ (')' :: rest)) := by simp
    rw [hcons, hcons2]
    simp only [tlcAux]
    rw [if_pos trivial, if_pos trivial]
    rw [tlc_elevated hi 1 0 (')' :: (rest ++ v)) (by rintro ⟨hq, _⟩; omega),
      tlc_elevated hi 1 0 (')' :: rest) (by rintro ⟨hq, _⟩; omega)]
    simp only [tlcAux]
    rw [if_neg (by decide), if_pos trivial, if_neg (by decide), if_pos trivial]
    have h2 : (1 : Nat) - 1 = 0 := by omega
    rw [h2]
    exact ihr v
  | @bracket inner rest hi hr ihi ihr =>
    intro v
    have hcons : (('[' :: inner) ++ ']' :: rest) ++ v
        = '[' :: (inner ++ (']' :: (rest ++ v))) := by simp
    have hcons2 : ('[' :: inner) ++ ']' :: rest
        = '[' :: (inner ++ (']' :: rest)) := by simp
    rw [hcons, hcons2]
    simp only [tlcAux]
    rw [if_neg (by decide), if_neg (by decide), if_pos trivial,
      if_neg (by decide), if_neg (by decide), if_pos trivial]
    rw [tlc_elevated hi 0 1 (']' :: (rest ++ v)) (by rintro ⟨_, hq⟩; omega),
      tlc_elevated hi 0 1 (']' :: rest) (by rintro ⟨_, hq⟩; omega)]
    simp only [tlcAux]
    rw [if_neg (by decide), if_neg (by decide), if_neg (by decide), if_pos trivial,
      if_neg (by decide), if_neg (by decide), if_neg (by decide), if_pos trivial]
    have h2 : (1 : Nat) - 1 = 0 := by omega
    rw [h2]
    exact ihr v

theorem tlc_zero_of_ftc_none :
    ∀ (t : List Char) (p b : Nat), ftc t p b = none → tlcAux t p b = 0 := by
  intro t
  induction t with
  | nil => intro p b _; rfl
  | cons c t2 ih =>
    intro p b h
    simp only [ftc] at h
    simp only [tlcAux]
    by_cases h1 : c = '('
    · rw [if_pos h1] at h ⊢
      exact ih _ _ (Option.map_eq_none'.mp h)
    · rw [if_neg h1] at h ⊢
      by_cases h2 : c = ')'
      · rw [if_pos h2] at h ⊢
        exact ih _ _ (Option.map_eq_none'.mp h)
      · rw [if_neg h2] at h ⊢
        by_cases h3 : c = '['
        · rw [if_pos h3] at h ⊢
          exact ih _ _ (Option.map_eq_none'.mp h)
        · rw [if_neg h3] at h ⊢
          by_cases h4 : c = ']'
          · rw [if_pos h4] at h ⊢
            exact ih _ _ (Option.map_eq_none'.mp h)
          · rw [if_neg h4] at h ⊢
            by_cases h5 : c = ',' ∧ p = 0 ∧ b = 0
            · rw [if_pos h5] at h
              cases h
            · rw [if_neg h5] at h ⊢
              exact ih _ _ (Option.map_eq_none'.mp h)

theorem ftc_cons_other {c : Char} (h1 : c ≠ '(') (h2 : c ≠ ')')
    (h3 : c ≠ '[') (h4 : c ≠ ']') (t : List Char) (p b : Nat) :
    ftc (c :: t) p b =
      (if c = ',' ∧ p = 0 ∧ b = 0 then some 0 else (ftc t p b).map (· + 1)) := by
  simp only [ftc]
  rw [if_neg h1, if_neg h2, if_neg h3, if_neg h4]

theorem ftc_paren_group (inner rest : List Char) (hi : WellNested inner) :
    ftc (('(' :: inner) ++ ')' :: rest) 0 0
      = (ftc rest 0 0).map (· + (inner.length + 2)) := by
  have hcons : ('(' :: inner) ++ ')' :: rest = '(' :: (inner ++ ')' :: rest) := by simp
  rw [hcons]
  simp only [ftc]
  rw [if_pos trivial]
  rw [ftc_elevated hi 1 0 (')' :: rest) (by rintro ⟨hq, _⟩; omega)]
  have hstep : ftc (')' :: rest) 1 0 = (ftc rest 0 0).map (· + 1) := by
    simp only [ftc]
    rw [if_neg (by decide), if_pos trivial]
  rw [hstep]
  cases ftc rest 0 0 with
  | none => simp
  | some a => simp; omega

theorem ftc_bracket_group (inner rest : List Char) (hi : WellNested inner) :
    ftc (('[' :: inner) ++ ']' :: rest) 0 0
      = (ftc rest 0 0).map (· + (inner.length + 2)) := by
  have hcons : ('[' :: inner) ++ ']' :: rest = '[' :: (inner ++ ']' :: rest) := by simp
  rw [hcons]
  simp only [ftc]
  rw [if_neg (by decide), if_neg (by decide), if_pos trivial]
  rw [ftc_elevated hi 0 1 (']' :: rest) (by rintro ⟨_, hq⟩; omega)]
  have hstep : ftc (']' :: rest) 0 1 = (ftc rest 0 0).map (· + 1) := by
    simp only [ftc]
    rw [if_neg (by decide), if_neg (by decide), if_neg (by decide), if_pos trivial]
  rw [hstep]
  cases ftc rest 0 0 with
  | none => simp
  | some a => simp; omega

theorem ftc_decomp :
    ∀ {s : List Char}, WellNested s → ∀ {r : Nat}, ftc s 0 0 = some r →
      ∃ a b, s = a ++ ',' :: b ∧ a.length = r ∧ WellNested a ∧ WellNested b ∧
        ftc a 0 0 = none := by
  intro s h
  induction h with
  | nil => intro r hr; cases hr
  | @other c t2 h1 h2 h3 h4 ht ih =>
    intro r hr
    rw [ftc_cons_other h1 h2 h3 h4] at hr
    by_cases hc : c = ','
    · rw [if_pos ⟨hc, rfl, rfl⟩] at hr
      have hr0 : r = 0 := (Option.some.inj hr).symm
      subst hr0
      exact ⟨[], t2, by rw [hc]; rfl, rfl, WellNested.nil, ht, rfl⟩
    · rw [if_neg (fun hcc => hc hcc.1)] at hr
      cases hf : ftc t2 0 0 with
      | none => rw [hf] at hr; cases hr
      | some r' =>
        rw [hf] at hr
        have hrr : r' + 1 = r := Option.some.inj hr
        obtain ⟨a, b2, hab, hlen2, hwa, hwb, hfa⟩ := ih hf
        refine ⟨c :: a, b2, ?_, ?_, ?_, hwb, ?_⟩
        · rw [hab]; rfl
        · simp only [List.length_cons]
          omega
        · exact WellNested.other h1 h2 h3 h4 hwa
        · rw [ftc_cons_other h1 h2 h3 h4, if_neg (fun hcc => hc hcc.1), hfa]
          rfl
  | @paren inner rest hi hr0 ihi ihr =>
    intro r hr
    rw [ftc_paren_group inner rest hi] at hr
    cases hf : ftc rest 0 0 with
    | none => rw [hf] at hr; cases hr
    | some r' =>
      rw [hf] at hr
      have hrr : r' + (inner.length + 2) = r := Option.some.inj hr
      obtain ⟨a, b2, hab, hlen2, hwa, hwb, hfa⟩ := ihr hf
      refine ⟨('(' :: inner) ++ ')' :: a, b2, ?_, ?_, ?_, hwb, ?_⟩
      · rw [hab]; simp
      · simp only [List.length_append, List.length_cons]
        omega
      · exact WellNested.paren hi hwa
      · rw [ftc_paren_group inner a hi, hfa]
        rfl
  | @bracket inner rest hi hr0 ihi ihr =>
    intro r hr
    rw [ftc_bracket_group inner rest hi] at hr
    cases hf : ftc rest 0 0 with
    | none => rw [hf] at hr; cases hr
    | some r' =>
      rw [hf] at hr
      have hrr : r' + (inner.length + 2) = r := Option.some.inj hr
      obtain ⟨a, b2, hab, hlen2, hwa, hwb, hfa⟩ := ihr hf
      refine ⟨('[' :: inner) ++ ']' :: a, b2, ?_, ?_, ?_, hwb, ?_⟩
      · rw [hab]; simp
      · simp only [List.length_append, List.length_cons]
        omega
      · exact WellNested.bracket hi hwa
      · rw [ftc_bracket_group inner a hi, hfa]
        rfl

theorem tlcAux_ws_cons {c : Char} (hc : isPySpace c = true) (t : List Char) (p b : Nat) :
    tlcAux (c :: t) p b = tlcAux t p b := by
  rcases isPySpace_ne_delim hc with ⟨h1, h2, h3, h4, h5⟩
  rw [tlcAux_cons_other h1 h2 h3 h4, if_neg (fun hcc => h5 hcc.1)]

theorem tlc_lstrip (t : List Char) (p b : Nat) :
    tlcAux (t.dropWhile isPySpace) p b = tlcAux t p b := by
  induction t with
  | nil => rfl
  | cons c t2 ih =>
    rw [List.dropWhile_cons]
    by_cases hp : isPySpace c = true
    · rw [if_pos hp, tlcAux_ws_cons hp t2 p b]
      exact ih
    · rw [if_neg hp]

theorem tlcAux_ws_concat {c : Char} (hc : isPySpace c = true) :
    ∀ (t : List Char) (p b : Nat), tlcAux (t ++ [c]) p b = tlcAux t p b := by
  intro t
  induction t with
  | nil =>
    intro p b
    rw [List.nil_append, tlcAux_ws_cons hc]
  | cons d t2 ih =>
    intro p b
    have hcons : (d :: t2) ++ [c] = d :: (t2 ++ [c]) := rfl
    rw [hcons]
    simp only [tlcAux]
    by_cases h1 : d = '('
    · rw [if_pos h1, if_pos h1]; exact ih _ _
    · rw [if_neg h1, if_neg h1]
      by_cases h2 : d = ')'
      · rw [if_pos h2, if_pos h2]; exact ih _ _
      · rw [if_neg h2, if_neg h2]
        by_cases h3 : d = '['
        · rw [if_pos h3, if_pos h3]; exact ih _ _
        · rw [if_neg h3, if_neg h3]
          by_cases h4 : d = ']'
          · rw [if_pos h4, if_pos h4]; exact ih _ _
          · rw [if_neg h4, if_neg h4]
            by_cases h5 : d = ',' ∧ p = 0 ∧ b = 0
            · rw [if_pos h5, if_pos h5, ih p b]
            · rw [if_neg h5, if_neg h5]; exact ih p b

theorem tlc_rstrip : ∀ t : List Char, tlcAux (t.rdropWhile isPySpace) 0 0 = tlcAux t 0 0 := by
  intro t
  induction t using List.reverseRecOn with
  | nil => rw [List.rdropWhile_nil]
  | append_singleton t2 a ih =>
    rw [List.rdropWhile_concat]
    by_cases hp : isPySpace a = true
    · rw [if_pos hp, tlcAux_ws_concat hp t2 0 0]
      exact ih
    · rw [if_neg hp]

theorem tlc_pstrip (t : List Char) : topLevelCommas (pstrip t) = topLevelCommas t := by
  unfold topLevelCommas pstrip
  rw [tlc_rstrip, tlc_lstrip]

theorem nneSpec_eq_some {u v : List Char} {r : Nat} (h : ftc v 0 0 = some r) :
    nneSpec u v = ((u.length + r : Nat) : Int) - 1 := by
  unfold nneSpec
  rw [h]

theorem nneSpec_eq_none {u v : List Char} (h : ftc v 0 0 = none) :
    nneSpec u v = ((u.length + v.length : Nat) : Int) - 1 := by
  unfold nneSpec
  rw [h]

theorem nneSpec_cons_other {c : Char} (h1 : c ≠ '(') (h2 : c ≠ ')')
    (h3 : c ≠ '[') (h4 : c ≠ ']') (h5 : c ≠ ',') (u t : List Char) :
    nneSpec (u ++ [c]) t = nneSpec u (c :: t) := by
  unfold nneSpec
  rw [ftc_cons_other h1 h2 h3 h4, if_neg (fun hcc => h5 hcc.1)]
  cases ftc t 0 0 with
  | none =>
    show (((u ++ [c]).length + t.length : Nat) : Int) - 1
        = ((u.length + (c :: t).length : Nat) : Int) - 1
    simp only [List.length_append, List.length_cons, List.length_nil]
    omega
  | some r =>
    show (((u ++ [c]).length + r : Nat) : Int) - 1
        = ((u.length + (r + 1) : Nat) : Int) - 1
    simp only [List.length_append, List.length_cons, List.length_nil]
    omega

theorem nneSpec_paren (u inner rest : List Char) (hi : WellNested inner) :
    nneSpec ((u ++ '(' :: inner) ++ [')']) rest
      = nneSpec u (('(' :: inner) ++ ')' :: rest) := by
  unfold nneSpec
  rw [ftc_paren_group inner rest hi]
  cases ftc rest 0 0 with
  | none =>
    show ((((u ++ '(' :: inner) ++ [')']).length + rest.length : Nat) : Int) - 1
        = ((u.length + (('(' :: inner) ++ ')' :: rest).length : Nat) : Int) - 1
    simp only [List.length_append, List.length_cons, List.length_nil]
    omega
  | some r =>
    show ((((u ++ '(' :: inner) ++ [')']).length + r : Nat) : Int) - 1
        = ((u.length + (r + (inner.length + 2)) : Nat) : Int) - 1
    simp only [List.length_append, List.length_cons, List.length_nil]
    omega

theorem nneSpec_bracket (u inner rest : List Char) (hi : WellNested inner) :
    nneSpec ((u ++ '[' :: inner) ++ [']']) rest
      = nneSpec u (('[' :: inner) ++ ']' :: rest) := by
  unfold nneSpec
  rw [ftc_bracket_group inner rest hi]
  cases ftc rest 0 0 with
  | none =>
    show ((((u ++ '[' :: inner) ++ [']']).length + rest.length : Nat) : Int) - 1
        = ((u.length + (('[' :: inner) ++ ']' :: rest).length : Nat) : Int) - 1
    simp only [List.length_append, List.length_cons, List.length_nil]
    omega
  | some r =>
    show ((((u ++ '[' :: inner) ++ [']']).length + r : Nat) : Int) - 1
        = ((u.length + (r + (inner.length + 2)) : Nat) : Int) - 1
    simp only [List.length_append, List.length_cons, List.length_nil]
    omega

theorem nneLoop_wn :
    ∀ {v : List Char}, WellNested v → ∀ (u : List Char) (fuel : Nat),
      v.length < fuel →
      nneLoopF fuel (u ++ v) u.length = PRes.ok (nneSpec u v) := by
  intro v h
  induction h with
  | nil =>
    intro u fuel hf
    cases fuel with
    | zero => omega
    | succ f =>
      have hg : (u ++ ([] : List Char))[u.length]? = none := by
        rw [List.append_nil]
        exact List.getElem?_eq_none (le_refl _)
      unfold nneLoopF
      simp only [hg]
      have hv : ftc ([] : List Char) 0 0 = none := rfl
      rw [nneSpec_eq_none hv]
      simp only [PRes.ok.injEq, List.length_append, List.length_nil]
  | @other c t2 h1 h2 h3 h4 ht ih =>
    intro u fuel hf
    cases fuel with
    | zero =>
      simp only [List.length_cons] at hf
      omega
    | succ f =>
      have hg : (u ++ c :: t2)[u.length]? = some c := by
        rw [List.getElem?_append_right (le_refl u.length)]
        simp
      unfold nneLoopF
      simp only [hg]
      rw [if_neg h1, if_neg h3]
      by_cases hc : c = ','
      · rw [if_pos hc]
        have hv : ftc (c :: t2) 0 0 = some 0 := by
          rw [ftc_cons_other h1 h2 h3 h4, if_pos ⟨hc, rfl, rfl⟩]
        rw [nneSpec_eq_some hv]
        simp only [PRes.ok.injEq]
        omega
      · rw [if_neg hc]
        have he : u ++ c :: t2 = (u ++ [c]) ++ t2 := by simp
        have hl : u.length + 1 = (u ++ [c]).length := by simp
        rw [he, hl, ih (u ++ [c]) f (by simp only [List.length_cons] at hf; omega)]
        rw [nneSpec_cons_other h1 h2 h3 h4 hc u t2]
  | @paren inner rest hi hr2 ihi ihr =>
    intro u fuel hf
    have hlv : (('(' :: inner) ++ ')' :: rest).length
        = inner.length + rest.length + 2 := by
      simp only [List.length_append, List.length_cons]
      omega
    cases fuel with
    | zero => omega
    | succ f =>
      have hassoc : u ++ (('(' :: inner) ++ ')' :: rest)
          = u ++ '(' :: (inner ++ ')' :: rest) := by simp
      rw [hassoc]
      have hg : (u ++ '(' :: (inner ++ ')' :: rest))[u.length]? = some '(' := by
        rw [List.getElem?_append_right (le_refl u.length)]
        simp
      unfold nneLoopF
      simp only [hg]
      rw [if_pos trivial]
      have hfc : _find_closing (u ++ '(' :: (inner ++ ')' :: rest))
          (u.length + 1) '(' ')' = PRes.ok (u.length + 1 + inner.length) :=
        find_closing_context (by decide)
          (fun x y hxy => wn_bal_prefix (Or.inl ⟨rfl, rfl⟩) hi x y hxy)
          (wn_bal_total (Or.inl ⟨rfl, rfl⟩) hi)
      simp only [hfc]
      cases f with
      | zero => omega
      | succ f2 =>
        have hg2 : (u ++ '(' :: (inner ++ ')' :: rest))[u.length + 1 + inner.length]?
            = some ')' := by
          have hassoc2 : u ++ '(' :: (inner ++ ')' :: rest)
              = (u ++ '(' :: inner) ++ ')' :: rest := by simp
          have hlen2 : (u ++ '(' :: inner).length = u.length + 1 + inner.length := by
            simp only [List.length_append, List.length_cons]
            omega
          rw [hassoc2, List.getElem?_append_right (le_of_eq hlen2), hlen2]
          simp
        unfold nneLoopF
        simp only [hg2]
        rw [if_neg (by decide), if_neg (by decide), if_neg (by decide)]
        have hassoc3 : u ++ '(' :: (inner ++ ')' :: rest)
            = ((u ++ '(' :: inner) ++ [')']) ++ rest := by simp
        have hlen3 : u.length + 1 + inner.length + 1
            = ((u ++ '(' :: inner) ++ [')']).length := by
          simp only [List.length_append, List.length_cons, List.length_nil]
          omega
        rw [hassoc3, hlen3, ihr ((u ++ '(' :: inner) ++ [')']) f2 (by omega)]
        rw [nneSpec_paren u inner rest hi]
  | @bracket inner rest hi hr2 ihi ihr =>
    intro u fuel hf
    have hlv : (('[' :: inner) ++ ']' :: rest).length
        = inner.length + rest.length + 2 := by
      simp only [List.length_append, List.length_cons]
      omega
    cases fuel with
    | zero => omega
    | succ f =>
      have hassoc : u ++ (('[' :: inner) ++ ']' :: rest)
          = u ++ '[' :: (inner ++ ']' :: rest) := by simp
      rw [hassoc]
      have hg : (u ++ '[' :: (inner ++ ']' :: rest))[u.length]? = some '[' := by
        rw [List.getElem?_append_right (le_refl u.length)]
        simp
      unfold nneLoopF
      simp only [hg]
      rw [if_neg (by decide), if_pos trivial]
      have hfc : _find_closing (u ++ '[' :: (inner ++ ']' :: rest))
          (u.length + 1) '[' ']' = PRes.ok (u.length + 1 + inner.length) :=
        find_closing_context (by decide)
          (fun x y hxy => wn_bal_prefix (Or.inr ⟨rfl, rfl⟩) hi x y hxy)
          (wn_bal_total (Or.inr ⟨rfl, rfl⟩) hi)
      simp only [hfc]
      cases f with
      | zero => omega
      | succ f2 =>
        have hg2 : (u ++ '[' :: (inner ++ ']' :: rest))[u.length + 1 + inner.length]?
            = some ']' := by
          have hassoc2 : u ++ '[' :: (inner ++ ']' :: rest)
              = (u ++ '[' :: inner) ++ ']' :: rest := by simp
          have hlen2 : (u ++ '[' :: inner).length = u.length + 1 + inner.length := by
            simp only [List.length_append, List.length_cons]
            omega
          rw [hassoc2, List.getElem?_append_right (le_of_eq hlen2), hlen2]
          simp
        unfold nneLoopF
        simp only [hg2]
        rw [if_neg (by decide), if_neg (by decide), if_neg (by decide)]
        have hassoc3 : u ++ '[' :: (inner ++ ']' :: rest)
            = ((u ++ '[' :: inner) ++ [']']) ++ rest := by simp
        have hlen3 : u.length + 1 + inner.length + 1
            = ((u ++ '[' :: inner) ++ [']']).length := by
          simp only [List.length_append, List.length_cons, List.length_nil]
          omega
        rw [hassoc3, hlen3, ihr ((u ++ '[' :: inner) ++ [']']) f2 (by omega)]
        rw [nneSpec_bracket u inner rest hi]

theorem pstrip_eq_nil_iff {t : List Char} :
    pstrip t = [] ↔ ∀ c ∈ t, isPySpace c = true := by
  unfold pstrip
  rw [List.rdropWhile_eq_nil_iff]
  constructor
  · intro h c hc
    have hsplit := List.takeWhile_append_dropWhile isPySpace t
    rw [← hsplit] at hc
    rcases List.mem_append.mp hc with h1 | h2
    · exact List.mem_takeWhile_imp h1
    · exact h c h2
  · intro h x hx
    exact h x ((List.dropWhile_sublist _).subset hx)

theorem getLast?_mem_self {α : Type} {l : List α} {a : α} (h : l.getLast? = some a) :
    a ∈ l := by
  induction l using List.reverseRecOn with
  | nil => cases h
  | append_singleton t b _ =>
    rw [List.getLast?_concat] at h
    injection h with h1
    subst h1
    simp

theorem head?_mem_self {α : Type} {l : List α} {a : α} (h : l.head? = some a) :
    a ∈ l := by
  cases l with
  | nil => cases h
  | cons b t =>
    rw [List.head?_cons] at h
    injection h with h1
    subst h1
    exact List.mem_cons_self b t

theorem pstrip_ne_nil_of_mem {t : List Char} {c : Char} (hc : c ∈ t)
    (hw : isPySpace c = false) : pstrip t ≠ [] := by
  intro h
  have hws := (pstrip_eq_nil_iff.mp h) c hc
  rw [hw] at hws
  simp at hws

theorem next_node_end_wn {t : List Char} (hw : WellNested t) (hp : pstrip t = t) :
    _next_node_end t = PRes.ok (nneSpec [] t) := by
  simp only [_next_node_end]
  rw [hp]
  by_cases hh : t.head? = some '('
  · rw [if_pos hh]
    obtain ⟨tl, htl⟩ : ∃ tl, t = '(' :: tl := by
      cases t with
      | nil => simp at hh
      | cons a b =>
        rw [List.head?_cons] at hh
        injection hh with h1
        exact ⟨b, by rw [h1]⟩
    subst htl
    obtain ⟨inner, rest, hsplit, hi, hr2⟩ := wn_paren_inv hw
    subst hsplit
    have hfc0 := @find_closing_context [] inner rest '(' ')' (by decide)
      (fun x y hxy => wn_bal_prefix (Or.inl ⟨rfl, rfl⟩) hi x y hxy)
      (wn_bal_total (Or.inl ⟨rfl, rfl⟩) hi)
    have hfc : _find_closing ('(' :: (inner ++ ')' :: rest)) 1 '(' ')'
        = PRes.ok (1 + inner.length) := by simpa using hfc0
    simp only [hfc]
    have hg : ('(' :: (inner ++ ')' :: rest))[1 + inner.length]? = some ')' := by
      have hassoc : '(' :: (inner ++ ')' :: rest) = ('(' :: inner) ++ ')' :: rest := by
        simp
      have hlen2 : ('(' :: inner).length = 1 + inner.length := by
        simp only [List.length_cons]
        omega
      rw [hassoc, List.getElem?_append_right (le_of_eq hlen2), hlen2]
      simp
    unfold nneLoopF
    simp only [hg]
    rw [if_neg (by decide), if_neg (by decide), if_neg (by decide)]
    have hfuel : rest.length < ('(' :: (inner ++ ')' :: rest)).length := by
      simp only [List.length_cons, List.length_append]
      omega
    have hloop := nneLoop_wn hr2 (('(' :: inner) ++ [')'])
      (('(' :: (inner ++ ')' :: rest)).length) hfuel
    have hassoc3 : (('(' :: inner) ++ [')']) ++ rest = '(' :: (inner ++ ')' :: rest) := by
      simp
    have hlen3 : (('(' :: inner) ++ [')']).length = 1 + inner.length + 1 := by
      simp only [List.length_append, List.length_cons, List.length_nil]
      omega
    rw [hassoc3, hlen3] at hloop
    have hps := nneSpec_paren [] inner rest hi
    rw [List.nil_append] at hps
    rw [hloop, hps]
    rfl
  · rw [if_neg hh]
    have h0 := nneLoop_wn hw [] (t.length + 1) (by omega)
    simpa using h0

theorem splitTopAux_none :
    ∀ (t : List Char) (p b : Nat) (acc : List Char), ftc t p b = none →
      splitTopAux t p b acc = [acc ++ t] := by
  intro t
  induction t with
  | nil =>
    intro p b acc _
    simp [splitTopAux]
  | cons c rest ih =>
    intro p b acc h
    simp only [ftc] at h
    simp only [splitTopAux]
    by_cases h1 : c = '('
    · rw [if_pos h1] at h ⊢
      have h' : ftc rest (p + 1) b = none := by
        cases hf : ftc rest (p + 1) b with
        | none => rfl
        | some r => rw [hf] at h; simp at h
      rw [ih _ _ _ h']
      simp
    · rw [if_neg h1] at h ⊢
      by_cases h2 : c = ')'
      · rw [if_pos h2] at h ⊢
        have h' : ftc rest (p - 1) b = none := by
          cases hf : ftc rest (p - 1) b with
          | none => rfl
          | some r => rw [hf] at h; simp at h
        rw [ih _ _ _ h']
        simp
      · rw [if_neg h2] at h ⊢
        by_cases h3 : c = '['
        · rw [if_pos h3] at h ⊢
          have h' : ftc rest p (b + 1) = none := by
            cases hf : ftc rest p (b + 1) with
            | none => rfl
            | some r => rw [hf] at h; simp at h
          rw [ih _ _ _ h']
          simp
        · rw [if_neg h3] at h ⊢
          by_cases h4 : c = ']'
          · rw [if_pos h4] at h ⊢
            have h' : ftc rest p (b - 1) = none := by
              cases hf : ftc rest p (b - 1) with
              | none => rfl
              | some r => rw [hf] at h; simp at h
            rw [ih _ _ _ h']
            simp
          · rw [if_neg h4] at h ⊢
            by_cases h5 : c = ',' ∧ p = 0 ∧ b = 0
            · rw [if_pos h5] at h
              cases h
            · rw [if_neg h5] at h ⊢
              have h' : ftc rest p b = none := by
                cases hf : ftc rest p b with
                | none => rfl
                | some r => rw [hf] at h; simp at h
              rw [ih _ _ _ h']
              simp

theorem splitTopAux_some :
    ∀ (t : List Char) (p b r : Nat) (acc : List Char), ftc t p b = some r →
      splitTopAux t p b acc
        = (acc ++ t.take r) :: splitTopAux (t.drop (r + 1)) 0 0 [] := by
  intro t
  induction t with
  | nil => intro p b r acc h; cases h
  | cons c rest ih =>
    intro p b r acc h
    simp only [ftc] at h
    simp only [splitTopAux]
    by_cases h1 : c = '('
    · rw [if_pos h1] at h ⊢
      cases hf : ftc rest (p + 1) b with
      | none => rw [hf] at h; simp at h
      | some r' =>
        rw [hf] at h
        have hr : r' + 1 = r := by simpa using h
        subst hr
        rw [ih _ _ _ _ hf]
        rw [List.take_succ_cons, List.drop_succ_cons]
        simp
    · rw [if_neg h1] at h ⊢
      by_cases h2 : c = ')'
      · rw [if_pos h2] at h ⊢
        cases hf : ftc rest (p - 1) b with
        | none => rw [hf] at h; simp at h
        | some r' =>
          rw [hf] at h
          have hr : r' + 1 = r := by simpa using h
          subst hr
          rw [ih _ _ _ _ hf]
          rw [List.take_succ_cons, List.drop_succ_cons]
          simp
      · rw [if_neg h2] at h ⊢
        by_cases h3 : c = '['
        · rw [if_pos h3] at h ⊢
          cases hf : ftc rest p (b + 1) with
          | none => rw [hf] at h; simp at h
          | some r' =>
            rw [hf] at h
            have hr : r' + 1 = r := by simpa using h
            subst hr
            rw [ih _ _ _ _ hf]
            rw [List.take_succ_cons, List.drop_succ_cons]
            simp
        · rw [if_neg h3] at h ⊢
          by_cases h4 : c = ']'
          · rw [if_pos h4] at h ⊢
            cases hf : ftc rest p (b - 1) with
            | none => rw [hf] at h; simp at h
            | some r' =>
              rw [hf] at h
              have hr : r' + 1 = r := by simpa using h
              subst hr
              rw [ih _ _ _ _ hf]
              rw [List.take_succ_cons, List.drop_succ_cons]
              simp
          · rw [if_neg h4] at h ⊢
            by_cases h5 : c = ',' ∧ p = 0 ∧ b = 0
            · obtain ⟨hc5, hp5, hb5⟩ := h5
              subst hp5
              subst hb5
              rw [if_pos ⟨hc5, rfl, rfl⟩] at h ⊢
              injection h with h0
              subst h0
              simp
            · rw [if_neg h5] at h ⊢
              cases hf : ftc rest p b with
              | none => rw [hf] at h; simp at h
              | some r' =>
                rw [hf] at h
                have hr : r' + 1 = r := by simpa using h
                subst hr
                rw [ih _ _ _ _ hf]
                rw [List.take_succ_cons, List.drop_succ_cons]
                simp

theorem splitTop_of_none {t : List Char} (h : ftc t 0 0 = none) : splitTop t = [t] := by
  unfold splitTop
  rw [splitTopAux_none t 0 0 [] h]
  rfl

theorem splitTop_decomp {t : List Char} {r : Nat} (h : ftc t 0 0 = some r) :
    splitTop t = t.take r :: splitTop (t.drop (r + 1)) := by
  unfold splitTop
  rw [splitTopAux_some t 0 0 r [] h]
  rfl

theorem lstrip_concat_cong {a1 a2 : List Char} (h : lstrip a1 = lstrip a2) (c : Char) :
    lstrip (a1 ++ [c]) = lstrip (a2 ++ [c]) := by
  unfold lstrip at h ⊢
  rw [List.dropWhile_append, List.dropWhile_append, h]

theorem pstrip_of_lstrip_eq {a1 a2 : List Char} (h : lstrip a1 = lstrip a2) :
    pstrip a1 = pstrip a2 := by
  unfold pstrip
  unfold lstrip at h
  rw [h]

theorem pstrip_concat_ws {w : Char} (hw : isPySpace w = true) (u : List Char) :
    pstrip (u ++ [w]) = pstrip u := by
  unfold pstrip
  rw [List.dropWhile_append]
  by_cases he : (u.dropWhile isPySpace).isEmpty
  · rw [if_pos he]
    have h0 : u.dropWhile isPySpace = [] := by
      cases hdw : u.dropWhile isPySpace with
      | nil => rfl
      | cons a l => rw [hdw, List.isEmpty_cons] at he; cases he
    rw [h0]
    have h1 : List.dropWhile isPySpace [w] = [] := by
      rw [List.dropWhile_cons, if_pos hw]
      rfl
    rw [h1]
  · rw [if_neg he]
    rw [List.rdropWhile_concat, if_pos hw]

theorem splitTopAux_acc_cong :
    ∀ (t : List Char) (p b : Nat) (a1 a2 : List Char), lstrip a1 = lstrip a2 →
      (splitTopAux t p b a1).map pstrip = (splitTopAux t p b a2).map pstrip := by
  intro t
  induction t with
  | nil =>
    intro p b a1 a2 h
    simp only [splitTopAux, List.map_cons, List.map_nil]
    rw [pstrip_of_lstrip_eq h]
  | cons c rest ih =>
    intro p b a1 a2 h
    simp only [splitTopAux]
    by_cases h1 : c = '('
    · rw [if_pos h1, if_pos h1]
      exact ih _ _ _ _ (lstrip_concat_cong h c)
    · rw [if_neg h1, if_neg h1]
      by_cases h2 : c = ')'
      · rw [if_pos h2, if_pos h2]
        exact ih _ _ _ _ (lstrip_concat_cong h c)
      · rw [if_neg h2, if_neg h2]
        by_cases h3 : c = '['
        · rw [if_pos h3, if_pos h3]
          exact ih _ _ _ _ (lstrip_concat_cong h c)
        · rw [if_neg h3, if_neg h3]
          by_cases h4 : c = ']'
          · rw [if_pos h4, if_pos h4]
            exact ih _ _ _ _ (lstrip_concat_cong h c)
          · rw [if_neg h4, if_neg h4]
            by_cases h5 : c = ',' ∧ p = 0 ∧ b = 0
            · rw [if_pos h5, if_pos h5]
              simp only [List.map_cons]
              rw [pstrip_of_lstrip_eq h]
            · rw [if_neg h5, if_neg h5]
              exact ih _ _ _ _ (lstrip_concat_cong h c)

theorem splitTop_lstrip :
    ∀ x : List Char, (splitTop (lstrip x)).map pstrip = (splitTop x).map pstrip := by
  intro x
  induction x with
  | nil => rfl
  | cons c x' ih =>
    by_cases hw : isPySpace c = true
    · have hl : lstrip (c :: x') = lstrip x' := by
        unfold lstrip
        rw [List.dropWhile_cons, if_pos hw]
      rw [hl, ih]
      obtain ⟨h1, h2, h3, h4, h5⟩ := isPySpace_ne_delim hw
      unfold splitTop
      simp only [splitTopAux]
      rw [if_neg h1, if_neg h2, if_neg h3, if_neg h4, if_neg (fun hx => h5 hx.1)]
      have hacc : lstrip (([] : List Char) ++ [c]) = lstrip ([] : List Char) := by
        unfold lstrip
        rw [List.nil_append, List.dropWhile_cons, if_pos hw]
      exact (splitTopAux_acc_cong x' 0 0 ([] ++ [c]) [] hacc).symm
    · have hl : lstrip (c :: x') = c :: x' := by
        unfold lstrip
        rw [List.dropWhile_cons, if_neg hw]
      rw [hl]

theorem splitTopAux_concat_ws {w : Char} (hw : isPySpace w = true) :
    ∀ (t : List Char) (p b : Nat) (acc : List Char),
      (splitTopAux (t ++ [w]) p b acc).map pstrip
        = (splitTopAux t p b acc).map pstrip := by
  intro t
  induction t with
  | nil =>
    intro p b acc
    obtain ⟨h1, h2, h3, h4, h5⟩ := isPySpace_ne_delim hw
    show (splitTopAux [w] p b acc).map pstrip = (splitTopAux [] p b acc).map pstrip
    simp only [splitTopAux]
    rw [if_neg h1, if_neg h2, if_neg h3, if_neg h4, if_neg (fun hx => h5 hx.1)]
    simp only [splitTopAux, List.map_cons, List.map_nil]
    rw [pstrip_concat_ws hw]
  | cons c t' ih =>
    intro p b acc
    have he : (c :: t') ++ [w] = c :: (t' ++ [w]) := rfl
    rw [he]
    simp only [splitTopAux]
    by_cases h1 : c = '('
    · rw [if_pos h1, if_pos h1]
      exact ih _ _ _
    · rw [if_neg h1, if_neg h1]
      by_cases h2 : c = ')'
      · rw [if_pos h2, if_pos h2]
        exact ih _ _ _
      · rw [if_neg h2, if_neg h2]
        by_cases h3 : c = '['
        · rw [if_pos h3, if_pos h3]
          exact ih _ _ _
        · rw [if_neg h3, if_neg h3]
          by_cases h4 : c = ']'
          · rw [if_pos h4, if_pos h4]
            exact ih _ _ _
          · rw [if_neg h4, if_neg h4]
            by_cases h5 : c = ',' ∧ p = 0 ∧ b = 0
            · rw [if_pos h5, if_pos h5]
              simp only [List.map_cons]
              rw [ih p b []]
            · rw [if_neg h5, if_neg h5]
              exact ih _ _ _

theorem splitTop_rstrip :
    ∀ x : List Char, (splitTop (x.rdropWhile isPySpace)).map pstrip
      = (splitTop x).map pstrip := by
  intro x
  induction x using List.reverseRecOn with
  | nil => rfl
  | append_singleton t a ih =>
    rw [List.rdropWhile_concat]
    by_cases hw : isPySpace a = true
    · rw [if_pos hw]
      unfold splitTop at ih ⊢
      rw [splitTopAux_concat_ws hw t 0 0 []]
      exact ih
    · rw [if_neg hw]

theorem splitTop_pstrip (x : List Char) :
    (splitTop (pstrip x)).map pstrip = (splitTop x).map pstrip := by
  unfold pstrip
  calc (splitTop ((x.dropWhile isPySpace).rdropWhile isPySpace)).map pstrip
      = (splitTop (x.dropWhile isPySpace)).map pstrip := splitTop_rstrip _
    _ = (splitTop x).map pstrip := splitTop_lstrip x

theorem ftc_append_of_some :
    ∀ (u : List Char) (p b r : Nat), ftc u p b = some r →
      ∀ v : List Char, ftc (u ++ v) p b = some r := by
  intro u
  induction u with
  | nil => intro p b r h v; cases h
  | cons c rest ih =>
    intro p b r h v
    have he : (c :: rest) ++ v = c :: (rest ++ v) := rfl
    rw [he]
    simp only [ftc] at h ⊢
    by_cases h1 : c = '('
    · rw [if_pos h1] at h ⊢
      cases hf : ftc rest (p + 1) b with
      | none => rw [hf] at h; simp at h
      | some r' =>
        rw [hf] at h
        rw [ih _ _ _ hf v]
        exact h
    · rw [if_neg h1] at h ⊢
      by_cases h2 : c = ')'
      · rw [if_pos h2] at h ⊢
        cases hf : ftc rest (p - 1) b with
        | none => rw [hf] at h; simp at h
        | some r' =>
          rw [hf] at h
          rw [ih _ _ _ hf v]
          exact h
      · rw [if_neg h2] at h ⊢
        by_cases h3 : c = '['
        · rw [if_pos h3] at h ⊢
          cases hf : ftc rest p (b + 1) with
          | none => rw [hf] at h; simp at h
          | some r' =>
            rw [hf] at h
            rw [ih _ _ _ hf v]
            exact h
        · rw [if_neg h3] at h ⊢
          by_cases h4 : c = ']'
          · rw [if_pos h4] at h ⊢
            cases hf : ftc rest p (b - 1) with
            | none => rw [hf] at h; simp at h
            | some r' =>
              rw [hf] at h
              rw [ih _ _ _ hf v]
              exact h
          · rw [if_neg h4] at h ⊢
            by_cases h5 : c = ',' ∧ p = 0 ∧ b = 0
            · rw [if_pos h5] at h ⊢
              exact h
            · rw [if_neg h5] at h ⊢
              cases hf : ftc rest p b with
              | none => rw [hf] at h; simp at h
              | some r' =>
                rw [hf] at h
                rw [ih _ _ _ hf v]
                exact h

theorem ftc_append_of_none :
    ∀ {u : List Char}, WellNested u → ftc u 0 0 = none →
      ∀ v : List Char, ftc (u ++ v) 0 0 = (ftc v 0 0).map (· + u.length) := by
  intro u hu
  induction hu with
  | nil =>
    intro _ v
    rw [List.nil_append]
    cases ftc v 0 0 with
    | none => rfl
    | some a => simp
  | @other c t2 h1 h2 h3 h4 ht ih =>
    intro h0 v
    rw [ftc_cons_other h1 h2 h3 h4] at h0
    by_cases h5 : c = ','
    · rw [if_pos ⟨h5, rfl, rfl⟩] at h0
      cases h0
    · rw [if_neg (fun hx => h5 hx.1)] at h0
      have ht0 : ftc t2 0 0 = none := by
        cases hf : ftc t2 0 0 with
        | none => rfl
        | some r => rw [hf] at h0; simp at h0
      have he : (c :: t2) ++ v = c :: (t2 ++ v) := rfl
      rw [he, ftc_cons_other h1 h2 h3 h4, if_neg (fun hx => h5 hx.1), ih ht0 v]
      cases ftc v 0 0 with
      | none => rfl
      | some a =>
        simp only [Option.map_some', Option.some.injEq, List.length_cons]
        omega
  | @paren inner rest hi hr ihi ihr =>
    intro h0 v
    rw [ftc_paren_group inner rest hi] at h0
    have hr0 : ftc rest 0 0 = none := by
      cases hf : ftc rest 0 0 with
      | none => rfl
      | some r => rw [hf] at h0; simp at h0
    have he : (('(' :: inner) ++ ')' :: rest) ++ v
        = ('(' :: inner) ++ ')' :: (rest ++ v) := by simp
    rw [he, ftc_paren_group inner (rest ++ v) hi, ihr hr0 v]
    cases ftc v 0 0 with
    | none => rfl
    | some a =>
      simp only [Option.map_some', Option.some.injEq, List.length_append,
        List.length_cons]
      omega
  | @bracket inner rest hi hr ihi ihr =>
    intro h0 v
    rw [ftc_bracket_group inner rest hi] at h0
    have hr0 : ftc rest 0 0 = none := by
      cases hf : ftc rest 0 0 with
      | none => rfl
      | some r => rw [hf] at h0; simp at h0
    have he : (('[' :: inner) ++ ']' :: rest) ++ v
        = ('[' :: inner) ++ ']' :: (rest ++ v) := by simp
    rw [he, ftc_bracket_group inner (rest ++ v) hi, ihr hr0 v]
    cases ftc v 0 0 with
    | none => rfl
    | some a =>
      simp only [Option.map_some', Option.some.injEq, List.length_append,
        List.length_cons]
      omega

theorem splitTop_concat_comma :
    ∀ (n : Nat) (t : List Char), t.length ≤ n → WellNested t →
      splitTop (t ++ [',']) = splitTop t ++ [[]] := by
  intro n
  induction n with
  | zero =>
    intro t hlen hw
    have ht : t = [] := List.length_eq_zero.mp (Nat.le_zero.mp hlen)
    subst ht
    rfl
  | succ n ih =>
    intro t hlen hw
    cases hf : ftc t 0 0 with
    | none =>
      have h1 : ftc (t ++ [',']) 0 0 = some t.length := by
        rw [ftc_append_of_none hw hf [',']]
        have hc : ftc [','] 0 0 = some 0 := rfl
        rw [hc]
        simp
      rw [splitTop_decomp h1, List.take_left]
      have hd : (t ++ [',']).drop (t.length + 1) = [] := by
        apply List.drop_eq_nil_of_le
        simp
      rw [hd, splitTop_of_none hf]
      rfl
    | some r =>
      obtain ⟨a, b, hab, hlenr, hwa, hwb, hfa⟩ := ftc_decomp hw hf
      have h1 : ftc (t ++ [',']) 0 0 = some r := ftc_append_of_some t 0 0 r hf [',']
      rw [splitTop_decomp h1, splitTop_decomp hf, List.cons_append]
      congr 1
      · rw [hab, ← hlenr, List.append_assoc, List.take_left, List.take_left]
      · have hrlen : r + 1 ≤ t.length := by
          rw [hab, ← hlenr]
          simp only [List.length_append, List.length_cons]
          omega
        have hd : (t ++ [',']).drop (r + 1) = t.drop (r + 1) ++ [','] :=
          List.drop_append_of_le_length hrlen
        rw [hd]
        have hdb : t.drop (r + 1) = b := by
          rw [hab, ← hlenr]
          rw [show a ++ ',' :: b = (a ++ [',']) ++ b by simp]
          rw [show a.length + 1 = (a ++ [',']).length by simp]
          exact List.drop_left _ _
        rw [hdb]
        have hblen : b.length ≤ n := by
          have : t.length = a.length + (b.length + 1) := by
            rw [hab]
            simp
          omega
        exact ih b hblen hwb

theorem split_nodesF_wn :
    ∀ (fuel : Nat) (s : List Char), s.length < fuel → WellNested (pstrip s) →
      pstrip s ≠ [] →
      ∃ l, split_nodesF fuel s = PRes.ok l ∧
        l.length = topLevelCommas (pstrip s) + 1 ∧
        l.map pstrip = (splitTop (pstrip s)).map pstrip ∧
        ∀ e ∈ l, pstrip e = [] → e = [] := by
  intro fuel
  induction fuel with
  | zero => intro s h _ _; omega
  | succ f ih =>
    intro s hlen hw hne
    have hts : (pstrip s).length ≤ s.length := pstrip_length_le s
    have htpos : 0 < (pstrip s).length := List.length_pos.mpr hne
    simp only [split_nodesF]
    rw [if_neg hne]
    by_cases hc1 : pstrip s = [',']
    · rw [if_pos hc1]
      refine ⟨[[], []], rfl, ?_, ?_, ?_⟩
      · rw [hc1]
        rfl
      · rw [hc1]
        decide
      · intro e he _
        simp at he
        exact he
    · rw [if_neg hc1]
      by_cases hc2 : (pstrip s).head? = some ','
      · rw [if_pos hc2]
        obtain ⟨t', ht'⟩ : ∃ t', pstrip s = ',' :: t' := by
          cases hps : pstrip s with
          | nil => exact absurd hps hne
          | cons a b =>
            rw [hps, List.head?_cons] at hc2
            injection hc2 with h1
            exact ⟨b, by rw [h1]⟩
        have ht'ne : t' ≠ [] := by
          intro h0
          rw [h0] at ht'
          exact hc1 ht'
        have hw' : WellNested (',' :: t') := by rw [← ht']; exact hw
        have hwt' : WellNested t' := wn_cons_inv hw' (by decide) (by decide)
        obtain ⟨c2, hc2l⟩ : ∃ c2, t'.getLast? = some c2 := by
          cases t' with
          | nil => exact absurd rfl ht'ne
          | cons d t'' => exact ⟨(d :: t'').getLast (by simp), List.getLast?_eq_getLast _ _⟩
        have hc2ws : isPySpace c2 = false := by
          have hx : (pstrip s).getLast? = some c2 := by
            rw [ht']
            cases t' with
            | nil => exact absurd rfl ht'ne
            | cons d t'' => rw [List.getLast?_cons_cons]; exact hc2l
          exact pstrip_getLast_not_space hx
        have hl1 : (pstrip s).length = t'.length + 1 := by
          rw [ht']
          rfl
        have hrec := ih t' (by omega) (wn_pstrip hwt')
          (pstrip_ne_nil_of_mem (getLast?_mem_self hc2l) hc2ws)
        obtain ⟨l, hl, hlc, hmap, hemp⟩ := hrec
        have hdrop : (pstrip s).drop 1 = t' := by
          rw [ht']
          rfl
        rw [hdrop, hl]
        refine ⟨[] :: l, rfl, ?_, ?_, ?_⟩
        · rw [List.length_cons, hlc, tlc_pstrip, ht']
          simp only [topLevelCommas]
          rw [tlcAux_cons_other (by decide) (by decide) (by decide) (by decide),
            if_pos ⟨rfl, rfl, rfl⟩]
        · have hftc' : ftc (',' :: t') 0 0 = some 0 := by
            rw [ftc_cons_other (by decide) (by decide) (by decide) (by decide),
              if_pos ⟨rfl, rfl, rfl⟩]
          rw [ht', splitTop_decomp hftc']
          simp only [List.take_zero, List.drop_succ_cons, List.drop_zero, List.map_cons]
          rw [hmap, splitTop_pstrip]
        · intro e he hpe
          rcases List.mem_cons.mp he with h | h
          · exact h
          · exact hemp e h hpe
      · rw [if_neg hc2]
        by_cases hc3 : (pstrip s).getLast? = some ','
        · rw [if_pos hc3]
          obtain ⟨t'', ht''⟩ : ∃ t'', pstrip s = t'' ++ [','] :=
            List.getLast?_eq_some_iff.mp hc3
          have ht''ne : t'' ≠ [] := by
            intro h0
            rw [h0] at ht''
            exact hc1 ht''
          have hw'' : WellNested (t'' ++ [',']) := by rw [← ht'']; exact hw
          have hwt'' : WellNested t'' :=
            wn_concat_inv hw'' rfl (by decide) (by decide) (by decide) (by decide)
          obtain ⟨c0, hc0⟩ : ∃ c0, t''.head? = some c0 := by
            cases t'' with
            | nil => exact absurd rfl ht''ne
            | cons d td => exact ⟨d, rfl⟩
          have hc0ws : isPySpace c0 = false := by
            have hx : (pstrip s).head? = some c0 := by
              rw [ht'']
              cases t'' with
              | nil => exact absurd rfl ht''ne
              | cons d td =>
                rw [List.head?_cons] at hc0
                injection hc0 with h1
                rw [List.cons_append, List.head?_cons, h1]
            exact pstrip_head_not_space hx
          have hl1 : (pstrip s).length = t''.length + 1 := by
            rw [ht'']
            simp
          have hrec := ih t'' (by omega) (wn_pstrip hwt'')
            (pstrip_ne_nil_of_mem (head?_mem_self hc0) hc0ws)
          obtain ⟨l, hl, hlc, hmap, hemp⟩ := hrec
          have hdl : (pstrip s).dropLast = t'' := by
            rw [ht'']
            exact List.dropLast_concat
          rw [hdl, hl]
          refine ⟨l ++ [[]], rfl, ?_, ?_, ?_⟩
          · rw [List.length_append, hlc, tlc_pstrip, ht'']
            simp only [topLevelCommas]
            rw [tlc_append_top hwt'' [',']]
            have h1 : tlcAux [','] 0 0 = 1 := rfl
            rw [h1]
            rfl
          · rw [ht'', splitTop_concat_comma t''.length t'' (le_refl _) hwt'']
            simp only [List.map_append, List.map_cons, List.map_nil]
            rw [hmap, splitTop_pstrip]
          · intro e he hpe
            rcases List.mem_append.mp he with h | h
            · exact hemp e h hpe
            · simp at h
              exact h
        · rw [if_neg hc3]
          have hnne := next_node_end_wn hw (pstrip_idem s)
          simp only [hnne]
          cases hftc : ftc (pstrip s) 0 0 with
          | none =>
            have he1 : nneSpec [] (pstrip s) + 1 = ((pstrip s).length : Int) := by
              rw [nneSpec_eq_none hftc]
              simp
            have hnode : pySliceTo (pstrip s) (nneSpec [] (pstrip s) + 1) = pstrip s := by
              rw [he1]
              unfold pySliceTo
              rw [if_neg (by omega)]
              simp
            have hrest0 : pySliceFrom (pstrip s) (nneSpec [] (pstrip s) + 1) = [] := by
              rw [he1]
              unfold pySliceFrom
              rw [if_neg (by omega)]
              simp
            have hemp0 : split_nodesF f [] = PRes.ok [] := by
              cases f with
              | zero => omega
              | succ f2 => rfl
            rw [hnode, hrest0]
            have hl0 : lstrip ([] : List Char) = [] := rfl
            rw [hl0]
            rw [if_neg (by simp)]
            rw [hemp0]
            refine ⟨[pstrip s], rfl, ?_, ?_, ?_⟩
            · have h0 : tlcAux (pstrip s) 0 0 = 0 := tlc_zero_of_ftc_none _ 0 0 hftc
              simp only [topLevelCommas, List.length_cons, List.length_nil, h0]
            · rw [splitTop_of_none hftc]
            · intro e he hpe
              simp at he
              subst he
              rw [pstrip_idem] at hpe
              exact absurd hpe hne
          | some r =>
            obtain ⟨a, b, hab, hlen2, hwa, hwb, hfa⟩ := ftc_decomp hw hftc
            have he1 : nneSpec [] (pstrip s) + 1 = (r : Int) := by
              rw [nneSpec_eq_some hftc]
              simp
            have htn : ((r : Int)).toNat = r := Int.toNat_natCast r
            have hta : (pstrip s).take r = a := by
              rw [hab, ← hlen2, List.take_left]
            have htb : (pstrip s).drop (r + 1) = b := by
              rw [hab, ← hlen2]
              rw [show a ++ ',' :: b = (a ++ [',']) ++ b by simp]
              rw [show a.length + 1 = (a ++ [',']).length by simp]
              exact List.drop_left _ _
            have hnode : pySliceTo (pstrip s) (nneSpec [] (pstrip s) + 1) = a := by
              rw [he1]
              unfold pySliceTo
              rw [if_neg (by omega)]
              rw [htn, hta]
            have hfrom : pySliceFrom (pstrip s) (nneSpec [] (pstrip s) + 1) = ',' :: b := by
              rw [he1]
              unfold pySliceFrom
              rw [if_neg (by omega)]
              rw [htn, hab, ← hlen2, List.drop_left]
            have hrest0 : lstrip (pySliceFrom (pstrip s) (nneSpec [] (pstrip s) + 1))
                = ',' :: b := by
              rw [hfrom]
              unfold lstrip
              rw [List.dropWhile_cons, if_neg (by decide)]
            rw [hnode, hrest0]
            rw [if_pos (show (',' :: b).head? = some ',' from rfl)]
            have hd1 : (',' :: b).drop 1 = b := rfl
            rw [hd1]
            have hbne : b ≠ [] := by
              intro h0
              rw [h0] at hab
              apply hc3
              rw [hab, List.getLast?_concat]
            obtain ⟨cb, hcb⟩ : ∃ cb, b.getLast? = some cb := by
              cases b with
              | nil => exact absurd rfl hbne
              | cons d td => exact ⟨(d :: td).getLast (by simp), List.getLast?_eq_getLast _ _⟩
            have hcbws : isPySpace cb = false := by
              have hx : (pstrip s).getLast? = some cb := by
                rw [hab, List.getLast?_append_of_ne_nil _ (by simp)]
                cases b with
                | nil => exact absurd rfl hbne
                | cons d td => rw [List.getLast?_cons_cons]; exact hcb
              exact pstrip_getLast_not_space hx
            have hps_len : (pstrip s).length = a.length + (b.length + 1) := by
              rw [hab]
              simp
            have hrec := ih b (by omega) (wn_pstrip hwb)
              (pstrip_ne_nil_of_mem (getLast?_mem_self hcb) hcbws)
            obtain ⟨l, hl, hlc, hmap, hemp⟩ := hrec
            rw [hl]
            refine ⟨a :: l, rfl, ?_, ?_, ?_⟩
            · have htlc : topLevelCommas (pstrip s) = topLevelCommas b + 1 := by
                simp only [topLevelCommas]
                rw [hab, tlc_append_top hwa (',' :: b)]
                rw [tlcAux_cons_other (by decide) (by decide) (by decide) (by decide),
                  if_pos ⟨rfl, rfl, rfl⟩]
                rw [tlc_zero_of_ftc_none a 0 0 hfa]
                omega
              rw [List.length_cons, hlc, tlc_pstrip, htlc]
            · rw [splitTop_decomp hftc, hta, htb]
              simp only [List.map_cons]
              rw [hmap, splitTop_pstrip]
            · intro e he hpe
              rcases List.mem_cons.mp he with h | h
              · subst h
                cases haa : e with
                | nil => rfl
                | cons d td =>
                  exfalso
                  have hxh : (pstrip s).head? = some d := by
                    rw [hab, haa]
                    rfl
                  have hdws := pstrip_head_not_space hxh
                  rw [haa] at hpe
                  exact pstrip_ne_nil_of_mem (head?_mem_self
                    (show (d :: td).head? = some d from rfl)) hdws hpe
              · exact hemp e h hpe

/-- Claim C2, counterexample.  The splitter invariant as stated fails on two
fragments.  The single-space fragment is non-empty and contains zero
top-level commas, yet `_split_nodes` returns zero entries rather than one;
and the fragment `(a[b),c]d,e`, whose parenthesis and bracket pairs cross,
contains one top-level comma (its last comma; the first is nested inside
the open bracket count), yet `_split_nodes` returns three entries rather
than two. -/
theorem claim_C2_counterexample :
    (" ".toList ≠ [] ∧ topLevelCommas (" ".toList) = 0 ∧
      _split_nodes (" ".toList) = PRes.ok [] ∧
      ¬∃ l, _split_nodes (" ".toList) = PRes.ok l ∧
        l.length = topLevelCommas (" ".toList) + 1) ∧
    ("(a[b),c]d,e".toList ≠ [] ∧
      topLevelCommas ("(a[b),c]d,e".toList) = 1 ∧
      _split_nodes ("(a[b),c]d,e".toList)
        = PRes.ok ["(a[b)".toList, "c]d".toList, "e".toList] ∧
      ¬∃ l, _split_nodes ("(a[b),c]d,e".toList) = PRes.ok l ∧
        l.length = topLevelCommas ("(a[b),c]d,e".toList) + 1) := by
  constructor
  · refine ⟨by decide, by decide, by decide, ?_⟩
    rintro ⟨l, hl, hlen⟩
    have he : _split_nodes (" ".toList) = PRes.ok [] := by decide
    rw [he] at hl
    injection hl with h2
    subst h2
    exact absurd hlen (by decide)
  · refine ⟨by decide, by decide, by decide, ?_⟩
    rintro ⟨l, hl, hlen⟩
    have he : _split_nodes ("(a[b),c]d,e".toList)
        = PRes.ok ["(a[b)".toList, "c]d".toList, "e".toList] := by decide
    rw [he] at hl
    injection hl with h2
    subst h2
    exact absurd hlen (by decide)

/-- Claim C2 (amended).  For every fragment whose trimmed form is non-empty
and has properly well-nested parentheses and brackets, `_split_nodes`
returns (without error) exactly N+1 entries, where N is the number of
top-level commas of the trimmed fragment; the entries correspond in order,
each up to whitespace trimming, to the top-level comma-separated segments
(`splitTop`) of the trimmed fragment, and every entry that trims to nothing
is literally the empty string, so each empty slot is preserved as an empty
string. -/
theorem claim_C2_split_amended (s : List Char)
    (hw : WellNested (pstrip s)) (hne : pstrip s ≠ []) :
    ∃ l, _split_nodes s = PRes.ok l ∧
      l.length = topLevelCommas (pstrip s) + 1 ∧
      l.map pstrip = (splitTop (pstrip s)).map pstrip ∧
      ∀ e ∈ l, pstrip e = [] → e = [] := by
  unfold _split_nodes
  exact split_nodesF_wn (s.length + 1) s (by omega) hw hne

/-- Witness for the amended claim C2 at the concrete fragment `a,b`. -/
theorem claim_C2_witness :
    ∃ l, _split_nodes ("a,b".toList) = PRes.ok l ∧
      l.length = topLevelCommas (pstrip ("a,b".toList)) + 1 ∧
      l.map pstrip = (splitTop (pstrip ("a,b".toList))).map pstrip ∧
      ∀ e ∈ l, pstrip e = [] → e = [] :=
  claim_C2_split_amended ("a,b".toList)
    (by
      have h : pstrip ("a,b".toList) = 'a' :: ',' :: 'b' :: [] := by decide
      rw [h]
      exact WellNested.other (by decide) (by decide) (by decide) (by decide)
        (WellNested.other (by decide) (by decide) (by decide) (by decide)
          (WellNested.other (by decide) (by decide) (by decide) (by decide)
            WellNested.nil)))
    (by decide)
